import Mathlib

/-!
Verification of the `vg` bidirected sequence-variation graph engine
(`src/vg.hpp`).  The repository ships only the class header; the inline
side-algebra code (NodeTraversal / NodeSide operators and the canonical
side-pair helpers) is embedded directly from the source, while the member
functions whose bodies live in the missing `vg.cpp` are modelled from the
natural-language specification (`spec.md`), as indicated in each doc
comment.
-/

namespace vg

/-- Embeds `class NodeTraversal` (vg.hpp:48-72).  The C++ `Node* node`
member is modelled by the pointer's address value (a `Nat`); two
traversals hold the same node exactly when the addresses coincide. -/
structure NodeTraversal where
  node : Nat
  backward : Bool
deriving DecidableEq, Repr

/-- Embeds `NodeTraversal::operator==` (vg.hpp:61-63):
`node == other.node && backward == other.backward`. -/
def NodeTraversal.eqb (a b : NodeTraversal) : Bool :=
  a.node == b.node && a.backward == b.backward

/-- Embeds `NodeTraversal::operator<` (vg.hpp:69-71):
`node < other.node || (node == other.node && backward < other.backward)`;
on C++ `bool`, `x < y` holds exactly when `x` is `false` and `y` is `true`. -/
def NodeTraversal.ltb (a b : NodeTraversal) : Bool :=
  a.node < b.node || (a.node == b.node && (!a.backward && b.backward))

/-- Embeds `class NodeSide` (vg.hpp:80-129): one side of a node,
identified by node id (`int64_t`, modelled as `Int`) and an end flag. -/
structure NodeSide where
  node : Int
  is_end : Bool
deriving DecidableEq, Repr

/-- Embeds `NodeSide::operator==` (vg.hpp:94-96). -/
def NodeSide.eqb (a b : NodeSide) : Bool :=
  a.node == b.node && a.is_end == b.is_end

/-- Embeds `NodeSide::operator<` (vg.hpp:102-104):
`node < other.node || (node == other.node && is_end < other.is_end)`. -/
def NodeSide.ltb (a b : NodeSide) : Bool :=
  a.node < b.node || (a.node == b.node && (!a.is_end && b.is_end))

/-- Embeds `std::minmax(a, b)` as used at vg.hpp:108/120/127: returns
`(b, a)` when `b < a` under `NodeSide::operator<`, else `(a, b)`. -/
def minmaxNS (a b : NodeSide) : NodeSide × NodeSide :=
  if NodeSide.ltb b a then (b, a) else (a, b)

/-- Embeds the protobuf `Edge` message (vg.pb.h, fields used throughout
vg.hpp): `from`, `to` node ids and the `from_start` / `to_end` flags. -/
structure Edge where
  «from» : Int
  «to» : Int
  from_start : Bool
  to_end : Bool
deriving DecidableEq, Repr

/-- Side of a node the edge attaches to on its `from` endpoint:
`from_start ? start : end` (vg.hpp:162-166 comment, §3 of the spec). -/
def Edge.fromSide (e : Edge) : NodeSide :=
  ⟨e.«from», !e.from_start⟩

/-- Side of a node the edge attaches to on its `to` endpoint. -/
def Edge.toSide (e : Edge) : NodeSide :=
  ⟨e.«to», e.to_end⟩

/-- Embeds `NodeSide::pair_from_edge` (vg.hpp:107-109):
`minmax(NodeSide(e->from(), !e->from_start()), NodeSide(e->to(), e->to_end()))`. -/
def pair_from_edge (e : Edge) : NodeSide × NodeSide :=
  minmaxNS ⟨e.«from», !e.from_start⟩ ⟨e.«to», e.to_end⟩

/-- Embeds `NodeSide::pair_from_start_edge` (vg.hpp:118-121):
`minmax(NodeSide(start_id, false), NodeSide(other.first, !other.second))`. -/
def pair_from_start_edge (start_id : Int) (other : Int × Bool) : NodeSide × NodeSide :=
  minmaxNS ⟨start_id, false⟩ ⟨other.1, !other.2⟩

/-- Embeds `NodeSide::pair_from_end_edge` (vg.hpp:125-128):
`minmax(NodeSide(end_id, true), NodeSide(other.first, other.second))`. -/
def pair_from_end_edge (end_id : Int) (other : Int × Bool) : NodeSide × NodeSide :=
  minmaxNS ⟨end_id, true⟩ ⟨other.1, other.2⟩

lemma NodeSide.ltb_irrefl (a : NodeSide) : NodeSide.ltb a a = false := by
  simp [NodeSide.ltb]

lemma NodeSide.ltb_asymm {a b : NodeSide} (h : NodeSide.ltb a b = true) :
    NodeSide.ltb b a = false := by
  rcases a with ⟨an, ae⟩; rcases b with ⟨bn, be⟩
  simp only [NodeSide.ltb, Bool.or_eq_true, decide_eq_true_eq, Bool.and_eq_true,
    beq_iff_eq, Bool.not_eq_true'] at h ⊢
  cases ae <;> cases be <;> simp_all <;> omega

lemma NodeSide.ltb_total {a b : NodeSide} (hab : NodeSide.ltb a b = false)
    (hba : NodeSide.ltb b a = false) : a = b := by
  rcases a with ⟨an, ae⟩; rcases b with ⟨bn, be⟩
  simp only [NodeSide.ltb, Bool.or_eq_false_iff, decide_eq_false_iff_not,
    Bool.and_eq_false_iff, beq_eq_false_iff_ne, ne_eq, Bool.not_eq_false,
    Bool.not_eq_true] at hab hba
  cases ae <;> cases be <;>
    simp_all <;> omega

lemma minmaxNS_comm (a b : NodeSide) : minmaxNS a b = minmaxNS b a := by
  unfold minmaxNS
  rcases hba : NodeSide.ltb b a with _ | _
  · rcases hab : NodeSide.ltb a b with _ | _
    · rw [NodeSide.ltb_total hab hba]
    · simp
  · rw [NodeSide.ltb_asymm hba]
    simp

lemma minmaxNS_eq_or (a b : NodeSide) :
    minmaxNS a b = (a, b) ∨ minmaxNS a b = (b, a) := by
  unfold minmaxNS
  rcases NodeSide.ltb b a with _ | _ <;> simp

/-- C5: for every edge, the canonicalization of its two node sides is
order-independent — `minmax` applied to the sides in either order yields the
same pair — and the result is the ordered (min, max) pair under
`NodeSide::operator<`, where the from side is `(from, !from_start)` and the
to side is `(to, to_end)` (vg.hpp:106-114). -/
theorem pair_from_edge_canonical :
    (∀ a b : NodeSide, minmaxNS a b = minmaxNS b a) ∧
    (∀ e : Edge,
      pair_from_edge e = minmaxNS (Edge.fromSide e) (Edge.toSide e) ∧
      Edge.fromSide e = ⟨e.«from», !e.from_start⟩ ∧
      Edge.toSide e = ⟨e.«to», e.to_end⟩ ∧
      NodeSide.ltb (pair_from_edge e).2 (pair_from_edge e).1 = false ∧
      ((pair_from_edge e).1 = Edge.fromSide e ∧ (pair_from_edge e).2 = Edge.toSide e ∨
       (pair_from_edge e).1 = Edge.toSide e ∧ (pair_from_edge e).2 = Edge.fromSide e)) := by
  refine ⟨minmaxNS_comm, fun e => ⟨rfl, rfl, rfl, ?_, ?_⟩⟩
  · rcases h : NodeSide.ltb ⟨e.«to», e.to_end⟩ ⟨e.«from», !e.from_start⟩ with _ | _
    · simp [pair_from_edge, minmaxNS, h]
    · simpa [pair_from_edge, minmaxNS, h] using NodeSide.ltb_asymm h
  · rcases h : NodeSide.ltb ⟨e.«to», e.to_end⟩ ⟨e.«from», !e.from_start⟩ with _ | _
    · left
      constructor <;> simp [pair_from_edge, minmaxNS, h, Edge.fromSide, Edge.toSide]
    · right
      constructor <;> simp [pair_from_edge, minmaxNS, h, Edge.fromSide, Edge.toSide]

/-- C8: equality and ordering of the two side-algebra value types are
lexicographic on their fields: `NodeTraversal` compares lexicographically on
`(node, backward)` with the node component compared by identity of the held
node, and `NodeSide` compares lexicographically on `(node, is_end)`
(vg.hpp:61-71, 94-104). -/
theorem side_algebra_lexicographic :
    (∀ a b : NodeTraversal,
      (NodeTraversal.eqb a b = true ↔ a.node = b.node ∧ a.backward = b.backward) ∧
      (NodeTraversal.ltb a b = true ↔
        Prod.Lex (· < ·) (· < ·) (a.node, a.backward) (b.node, b.backward))) ∧
    (∀ a b : NodeSide,
      (NodeSide.eqb a b = true ↔ a.node = b.node ∧ a.is_end = b.is_end) ∧
      (NodeSide.ltb a b = true ↔
        Prod.Lex (· < ·) (· < ·) (a.node, a.is_end) (b.node, b.is_end))) := by
  constructor
  · intro a b
    constructor
    · simp [NodeTraversal.eqb]
    · rw [Prod.lex_def]
      rcases a with ⟨an, ab⟩; rcases b with ⟨bn, bb⟩
      simp only [NodeTraversal.ltb, Bool.or_eq_true, Bool.and_eq_true,
        decide_eq_true_eq, beq_iff_eq]
      cases ab <;> cases bb <;> simp [Bool.lt_iff]
  · intro a b
    constructor
    · simp [NodeSide.eqb]
    · rw [Prod.lex_def]
      rcases a with ⟨an, ae⟩; rcases b with ⟨bn, be⟩
      simp only [NodeSide.ltb, Bool.or_eq_true, Bool.and_eq_true,
        decide_eq_true_eq, beq_iff_eq]
      cases ae <;> cases be <;> simp [Bool.lt_iff]

/-- Embeds the protobuf `Node` message: a 64-bit id and a sequence
(spec §3: "a positive 64-bit identifier, a sequence"). -/
structure Node where
  id : Int
  sequence : List Char
deriving DecidableEq, Repr

/-- The graph state.  Modelled from the spec: the member definitions of
`class VG` (vg.hpp:176-890) live in the missing vg.cpp, so the store is
modelled as the protobuf-backed containers `graph.nodes`, `graph.edges`
and `paths` plus the id counter (vg.hpp:180-192); a path is kept as its
name and the node ids of its mappings.  The four derived indexes
(`node_by_id`, `edge_by_sides`, `node_index`/`edge_index`,
`edges_on_start`/`edges_on_end`, vg.hpp:197-217) are modelled as views
computed from the containers, which §3's invariants 2-4 require them to
coincide with after every public mutation (spec §9 likewise reduces the
store to the containers plus `rebuild_indexes`). -/
structure VG where
  nodes : List Node
  edges : List Edge
  pathList : List (String × List Int)
  current_id : Int
deriving DecidableEq, Repr

/-- View of `node_by_id` (vg.hpp:198): id to node record. -/
def node_by_id (g : VG) (i : Int) : Option Node :=
  g.nodes.find? (fun n => n.id == i)

/-- Embeds `VG::has_node` (vg.hpp:489) over the `node_by_id` view. -/
def has_node (g : VG) (i : Int) : Bool :=
  (node_by_id g i).isSome

/-- View of `node_index` (vg.hpp:207): position of a node (named by id,
ids being unique per §3 invariant 6) in the `nodes` container. -/
def node_index (g : VG) (i : Int) : Option Nat :=
  g.nodes.findIdx? (fun n => n.id == i)

/-- View of `edge_by_sides` (vg.hpp:203): canonical side pair to edge. -/
def edge_by_sides (g : VG) (key : NodeSide × NodeSide) : Option Edge :=
  g.edges.find? (fun e => pair_from_edge e == key)

/-- View of `edge_index` (vg.hpp:211): position of an edge record in the
`edges` container (duplicate side pairs, hence duplicate records, are
forbidden by §3 invariant 2). -/
def edge_index (g : VG) (e : Edge) : Option Nat :=
  g.edges.findIdx? (fun x => x == e)

/-- Entries an edge contributes to `edges_on_start[n]` (vg.hpp:213-215):
the stored pair `(other_id, rel)` is the one `pair_from_start_edge`
(vg.hpp:118-121) maps back to the edge's other side `(other_id, !rel)`. -/
def startEntries (n : Int) (e : Edge) : List (Int × Bool) :=
  (if e.«from» == n && e.from_start then [(e.«to», !e.to_end)] else []) ++
  (if e.«to» == n && !e.to_end then [(e.«from», e.from_start)] else [])

/-- Entries an edge contributes to `edges_on_end[n]` (vg.hpp:216-217),
inverted by `pair_from_end_edge` (vg.hpp:125-128). -/
def endEntries (n : Int) (e : Edge) : List (Int × Bool) :=
  (if e.«from» == n && !e.from_start then [(e.«to», e.to_end)] else []) ++
  (if e.«to» == n && e.to_end then [(e.«from», !e.from_start)] else [])

/-- View of `edges_on_start` (vg.hpp:215): a self-loop touching the start
side twice contributes two entries (§3 invariant 3). -/
def edges_on_start (g : VG) (n : Int) : List (Int × Bool) :=
  g.edges.flatMap (startEntries n)

/-- View of `edges_on_end` (vg.hpp:217). -/
def edges_on_end (g : VG) (n : Int) : List (Int × Bool) :=
  g.edges.flatMap (endEntries n)

/-- Modelled from the spec: the body of `VG::create_edge(NodeSide, NodeSide)`
(declared vg.hpp:537) is in the missing vg.cpp.  Spec §4.2: "if already
present, return existing; if either node is absent, fail; canonicalize and
insert into all indexes", matching the header contract (vg.hpp:530-531).
The created record attaches its `from` endpoint at `side1` and its `to`
endpoint at `side2`. -/
def create_edge (g : VG) (side1 side2 : NodeSide) : Option Edge × VG :=
  match edge_by_sides g (minmaxNS side1 side2) with
  | some e => (some e, g)
  | none =>
    if has_node g side1.node && has_node g side2.node then
      let e : Edge := ⟨side1.node, side2.node, !side1.is_end, side2.is_end⟩
      (some e, { g with edges := g.edges ++ [e] })
    else (none, g)

/-- First-occurrence duplicate suppression used by the `edges_of_node`
model; `seen` holds the edges already emitted. -/
def dedupKeep (seen : List Edge) : List Edge → List Edge
  | [] => []
  | e :: rest => if e ∈ seen then dedupKeep seen rest else e :: dedupKeep (e :: seen) rest

/-- Modelled from the spec: the body of `VG::edges_of_node` (declared
vg.hpp:445) is in the missing vg.cpp.  It walks both side lists of the
node, resolves each entry through the canonical side-pair index
(vg.hpp:118-128), and honours the header guarantee "Guaranteed to add
each edge only once per call" (vg.hpp:443-444) by suppressing repeats —
in particular a self-loop occurring twice in a side list. -/
def edges_of_node (g : VG) (nid : Int) : List Edge :=
  dedupKeep []
    ((edges_on_start g nid).filterMap (fun p => edge_by_sides g (pair_from_start_edge nid p)) ++
     (edges_on_end g nid).filterMap (fun p => edge_by_sides g (pair_from_end_edge nid p)))

/-- The `Edge` record a fresh `create_edge(side1, side2)` call constructs:
`from` attaches at `side1`, `to` at `side2`. -/
def edgeFromSides (side1 side2 : NodeSide) : Edge :=
  ⟨side1.node, side2.node, !side1.is_end, side2.is_end⟩

lemma find?_map_nodup {α κ : Type} [BEq κ] [LawfulBEq κ] (f : α → κ) :
    ∀ (l : List α) (e : α), (l.map f).Nodup → e ∈ l →
      l.find? (fun x => f x == f e) = some e := by
  intro l
  induction l with
  | nil => intro e _ he; cases he
  | cons a rest ih =>
    intro e hnd he
    rcases List.mem_cons.1 he with rfl | he'
    · simp [List.find?_cons]
    · rw [List.map_cons, List.nodup_cons] at hnd
      have hne : ¬(f a == f e) = true := by
        intro hfeq
        exact hnd.1 (by
          rw [beq_iff_eq] at hfeq
          rw [hfeq]
          exact List.mem_map_of_mem f he')
      exact (List.find?_cons_of_neg rest hne).trans (ih e hnd.2 he')

lemma edge_by_sides_self {g : VG} {e : Edge}
    (hnd : (g.edges.map pair_from_edge).Nodup) (he : e ∈ g.edges) :
    edge_by_sides g (pair_from_edge e) = some e := by
  unfold edge_by_sides
  exact find?_map_nodup pair_from_edge g.edges e hnd he

lemma startEntries_key {n : Int} {e : Edge} {p : Int × Bool}
    (hp : p ∈ startEntries n e) :
    pair_from_start_edge n p = pair_from_edge e ∧ (e.«from» = n ∨ e.«to» = n) := by
  rcases e with ⟨f, t, fs, te⟩
  simp only [startEntries, List.mem_append] at hp
  rcases hp with hp | hp
  · by_cases hc : (f == n && fs) = true
    · rw [if_pos hc] at hp
      simp only [List.mem_singleton] at hp
      rw [Bool.and_eq_true, beq_iff_eq] at hc
      subst hp
      constructor
      · simp [pair_from_start_edge, pair_from_edge, hc.1, hc.2]
      · exact Or.inl hc.1
    · rw [if_neg hc] at hp; cases hp
  · by_cases hc : (t == n && !te) = true
    · rw [if_pos hc] at hp
      simp only [List.mem_singleton] at hp
      rw [Bool.and_eq_true, beq_iff_eq, Bool.not_eq_true'] at hc
      subst hp
      constructor
      · rw [pair_from_start_edge, pair_from_edge]
        simp only [hc.1, hc.2]
        exact minmaxNS_comm _ _
      · exact Or.inr hc.1
    · rw [if_neg hc] at hp; cases hp

lemma endEntries_key {n : Int} {e : Edge} {p : Int × Bool}
    (hp : p ∈ endEntries n e) :
    pair_from_end_edge n p = pair_from_edge e ∧ (e.«from» = n ∨ e.«to» = n) := by
  rcases e with ⟨f, t, fs, te⟩
  simp only [endEntries, List.mem_append] at hp
  rcases hp with hp | hp
  · by_cases hc : (f == n && !fs) = true
    · rw [if_pos hc] at hp
      simp only [List.mem_singleton] at hp
      rw [Bool.and_eq_true, beq_iff_eq, Bool.not_eq_true'] at hc
      subst hp
      constructor
      · simp [pair_from_end_edge, pair_from_edge, hc.1, hc.2]
      · exact Or.inl hc.1
    · rw [if_neg hc] at hp; cases hp
  · by_cases hc : (t == n && te) = true
    · rw [if_pos hc] at hp
      simp only [List.mem_singleton] at hp
      rw [Bool.and_eq_true, beq_iff_eq] at hc
      subst hp
      constructor
      · rw [pair_from_end_edge, pair_from_edge]
        simp only [hc.1, hc.2]
        exact minmaxNS_comm _ _
      · exact Or.inr hc.1
    · rw [if_neg hc] at hp; cases hp

lemma mem_dedupKeep (x : Edge) :
    ∀ (l seen : List Edge), x ∈ dedupKeep seen l ↔ x ∈ l ∧ x ∉ seen := by
  intro l
  induction l with
  | nil => intro seen; simp [dedupKeep]
  | cons e rest ih =>
    intro seen
    rw [dedupKeep]
    by_cases hc : e ∈ seen
    · rw [if_pos hc, ih]
      constructor
      · rintro ⟨h1, h2⟩
        exact ⟨List.mem_cons_of_mem _ h1, h2⟩
      · rintro ⟨h1, h2⟩
        rcases List.mem_cons.1 h1 with rfl | h1'
        · exact absurd hc h2
        · exact ⟨h1', h2⟩
    · rw [if_neg hc]
      constructor
      · intro hx
        rcases List.mem_cons.1 hx with rfl | hx'
        · exact ⟨List.mem_cons_self _ _, hc⟩
        · rcases (ih (e :: seen)).1 hx' with ⟨h1, h2⟩
          exact ⟨List.mem_cons_of_mem _ h1,
            fun hs => h2 (List.mem_cons_of_mem _ hs)⟩
      · rintro ⟨h1, h2⟩
        rcases List.mem_cons.1 h1 with rfl | h1'
        · exact List.mem_cons_self _ _
        · by_cases hxe : x = e
          · subst hxe; exact List.mem_cons_self _ _
          · exact List.mem_cons_of_mem _ ((ih (e :: seen)).2
              ⟨h1', fun hs => by
                rcases List.mem_cons.1 hs with h | h
                · exact hxe h
                · exact h2 h⟩)

lemma nodup_dedupKeep : ∀ (l seen : List Edge), (dedupKeep seen l).Nodup := by
  intro l
  induction l with
  | nil => intro seen; simp [dedupKeep]
  | cons e rest ih =>
    intro seen
    rw [dedupKeep]
    by_cases hc : e ∈ seen
    · rw [if_pos hc]; exact ih seen
    · rw [if_neg hc]
      refine List.nodup_cons.2 ⟨?_, ih (e :: seen)⟩
      intro hmem
      exact ((mem_dedupKeep e rest (e :: seen)).1 hmem).2 (List.mem_cons_self _ _)

/-- C10: for every node of a graph whose edges have pairwise distinct
canonical side pairs (§3 invariant 2) — including a node carrying a
self-loop edge, which occurs twice in that node's side lists — a single
`edges_of_node` call produces each distinct incident edge exactly once:
the output has no duplicates and contains precisely the edges of the
graph touching the node. -/
theorem edges_of_node_once (g : VG) (nid : Int)
    (hnd : (g.edges.map pair_from_edge).Nodup) :
    (edges_of_node g nid).Nodup ∧
    ∀ e : Edge, e ∈ edges_of_node g nid ↔
      e ∈ g.edges ∧ (e.«from» = nid ∨ e.«to» = nid) := by
  constructor
  · exact nodup_dedupKeep _ _
  · intro e
    rw [edges_of_node, mem_dedupKeep]
    simp only [List.not_mem_nil, not_false_eq_true, and_true, List.mem_append,
      List.mem_filterMap]
    constructor
    · rintro (⟨p, hp, hfind⟩ | ⟨p, hp, hfind⟩)
      · have hmem : e ∈ g.edges := List.mem_of_find?_eq_some hfind
        have hpair : pair_from_edge e = pair_from_start_edge nid p := by
          have := List.find?_some hfind
          rwa [beq_iff_eq] at this
        rcases List.mem_flatMap.1 hp with ⟨e0, he0, hpe0⟩
        rcases startEntries_key hpe0 with ⟨hkey, hinc⟩
        have heq : e = e0 := by
          refine List.inj_on_of_nodup_map hnd hmem he0 ?_
          rw [hpair, hkey]
        exact ⟨hmem, heq ▸ hinc⟩
      · have hmem : e ∈ g.edges := List.mem_of_find?_eq_some hfind
        have hpair : pair_from_edge e = pair_from_end_edge nid p := by
          have := List.find?_some hfind
          rwa [beq_iff_eq] at this
        rcases List.mem_flatMap.1 hp with ⟨e0, he0, hpe0⟩
        rcases endEntries_key hpe0 with ⟨hkey, hinc⟩
        have heq : e = e0 := by
          refine List.inj_on_of_nodup_map hnd hmem he0 ?_
          rw [hpair, hkey]
        exact ⟨hmem, heq ▸ hinc⟩
    · rintro ⟨hmem, hinc⟩
      rcases e with ⟨f, t, fs, te⟩
      rcases hinc with rfl | rfl
      · cases fs
        · -- from side is the end: entry in the end list
          refine Or.inr ⟨(t, te), ?_, ?_⟩
          · exact List.mem_flatMap.2 ⟨_, hmem, by simp [endEntries]⟩
          · have hkey := (endEntries_key (n := f) (e := ⟨f, t, false, te⟩)
              (p := (t, te)) (by simp [endEntries])).1
            rw [hkey]
            exact edge_by_sides_self hnd hmem
        · refine Or.inl ⟨(t, !te), ?_, ?_⟩
          · exact List.mem_flatMap.2 ⟨_, hmem, by simp [startEntries]⟩
          · have hkey := (startEntries_key (n := f) (e := ⟨f, t, true, te⟩)
              (p := (t, !te)) (by simp [startEntries])).1
            rw [hkey]
            exact edge_by_sides_self hnd hmem
      · cases te
        · refine Or.inl ⟨(f, fs), ?_, ?_⟩
          · exact List.mem_flatMap.2 ⟨_, hmem, by simp [startEntries]⟩
          · have hkey := (startEntries_key (n := t) (e := ⟨f, t, fs, false⟩)
              (p := (f, fs)) (by simp [startEntries])).1
            rw [hkey]
            exact edge_by_sides_self hnd hmem
        · refine Or.inr ⟨(f, !fs), ?_, ?_⟩
          · exact List.mem_flatMap.2 ⟨_, hmem, by simp [endEntries]⟩
          · have hkey := (endEntries_key (n := t) (e := ⟨f, t, fs, true⟩)
              (p := (f, !fs)) (by simp [endEntries])).1
            rw [hkey]
            exact edge_by_sides_self hnd hmem

/-- A one-node graph whose single edge is an end-to-end self-loop: the
loop occurs twice in `edges_on_end[1]`. -/
def selfLoopG : VG :=
  ⟨[⟨1, ['A']⟩], [⟨1, 1, false, true⟩], [], 2⟩

/-- Witness for C10 on the self-loop graph: the side list holds the loop
twice, yet `edges_of_node` reports it exactly once. -/
theorem edges_of_node_once_witness :
    ((edges_of_node selfLoopG 1).Nodup ∧
      ∀ e : Edge, e ∈ edges_of_node selfLoopG 1 ↔
        e ∈ selfLoopG.edges ∧ (e.«from» = 1 ∨ e.«to» = 1)) ∧
    edges_on_end selfLoopG 1 = [(1, true), (1, true)] ∧
    edges_of_node selfLoopG 1 = [⟨1, 1, false, true⟩] :=
  ⟨edges_of_node_once selfLoopG 1 (by decide), by decide, by decide⟩

lemma pair_from_edgeFromSides (s1 s2 : NodeSide) :
    pair_from_edge (edgeFromSides s1 s2) = minmaxNS s1 s2 := by
  rcases s1 with ⟨n1, e1⟩
  rcases s2 with ⟨n2, e2⟩
  simp [pair_from_edge, edgeFromSides]

/-- C6: `create_edge(side1, side2)` returns the already-existing edge and
leaves the graph unchanged when an edge between the two sides is present;
returns null and leaves the graph unchanged when either referenced node is
absent; and on fresh sides with both nodes present appends the new edge
and enters it into all the edge indexes — the edge store, `edge_by_sides`
under the canonical side pair, `edge_index`, and the side list of each of
the two connected node sides. -/
theorem create_edge_spec (g : VG) (s1 s2 : NodeSide) :
    (∀ e : Edge, edge_by_sides g (minmaxNS s1 s2) = some e →
      create_edge g s1 s2 = (some e, g)) ∧
    (edge_by_sides g (minmaxNS s1 s2) = none →
      (has_node g s1.node = false ∨ has_node g s2.node = false) →
      create_edge g s1 s2 = (none, g)) ∧
    (edge_by_sides g (minmaxNS s1 s2) = none →
      has_node g s1.node = true → has_node g s2.node = true →
      create_edge g s1 s2 =
        (some (edgeFromSides s1 s2), { g with edges := g.edges ++ [edgeFromSides s1 s2] }) ∧
      edgeFromSides s1 s2 ∈ (create_edge g s1 s2).2.edges ∧
      edge_by_sides (create_edge g s1 s2).2 (minmaxNS s1 s2) = some (edgeFromSides s1 s2) ∧
      edge_index (create_edge g s1 s2).2 (edgeFromSides s1 s2) = some g.edges.length ∧
      (if s1.is_end then
        (s2.node, s2.is_end) ∈ edges_on_end (create_edge g s1 s2).2 s1.node
       else
        (s2.node, !s2.is_end) ∈ edges_on_start (create_edge g s1 s2).2 s1.node) ∧
      (if s2.is_end then
        (s1.node, s1.is_end) ∈ edges_on_end (create_edge g s1 s2).2 s2.node
       else
        (s1.node, !s1.is_end) ∈ edges_on_start (create_edge g s1 s2).2 s2.node)) := by
  refine ⟨?_, ?_, ?_⟩
  · intro e h
    simp [create_edge, h]
  · intro h hno
    rcases hno with hno | hno <;> simp [create_edge, h, hno]
  · intro h h1 h2
    have hstep : create_edge g s1 s2 =
        (some (edgeFromSides s1 s2), { g with edges := g.edges ++ [edgeFromSides s1 s2] }) := by
      simp [create_edge, h, h1, h2, edgeFromSides]
    have hnotin : ∀ x ∈ g.edges, (x == edgeFromSides s1 s2) = false := by
      intro x hx
      rw [beq_eq_false_iff_ne]
      rintro rfl
      have := List.find?_eq_none.1 h _ hx
      exact this (by rw [pair_from_edgeFromSides]; exact beq_self_eq_true _)
    refine ⟨hstep, ?_, ?_, ?_, ?_, ?_⟩
    · rw [hstep]; simp
    · rw [hstep]
      show List.find? _ (g.edges ++ [edgeFromSides s1 s2]) = _
      rw [List.find?_append]
      have h' : List.find? (fun e => pair_from_edge e == minmaxNS s1 s2) g.edges = none := h
      rw [h']
      simp [pair_from_edgeFromSides]
    · rw [hstep]
      show List.findIdx? _ (g.edges ++ [edgeFromSides s1 s2]) = _
      rw [List.findIdx?_append]
      have h0 : List.findIdx? (fun x => x == edgeFromSides s1 s2) g.edges = none :=
        List.findIdx?_eq_none_iff.2 hnotin
      rw [h0]
      simp
    · rw [hstep]
      rcases s1 with ⟨n1, e1⟩
      rcases s2 with ⟨n2, e2⟩
      cases e1
      · simp only [ite_false]
        exact List.mem_flatMap.2 ⟨edgeFromSides ⟨n1, false⟩ ⟨n2, e2⟩, by simp,
          by simp [edgeFromSides, startEntries]⟩
      · simp only [ite_true]
        exact List.mem_flatMap.2 ⟨edgeFromSides ⟨n1, true⟩ ⟨n2, e2⟩, by simp,
          by simp [edgeFromSides, endEntries]⟩
    · rw [hstep]
      rcases s1 with ⟨n1, e1⟩
      rcases s2 with ⟨n2, e2⟩
      cases e2
      · simp only [ite_false]
        exact List.mem_flatMap.2 ⟨edgeFromSides ⟨n1, e1⟩ ⟨n2, false⟩, by simp,
          by simp [edgeFromSides, startEntries]⟩
      · simp only [ite_true]
        exact List.mem_flatMap.2 ⟨edgeFromSides ⟨n1, e1⟩ ⟨n2, true⟩, by simp,
          by simp [edgeFromSides, endEntries]⟩

/-- A two-node graph with no edges, used to exercise `create_edge`. -/
def twoNodeG : VG :=
  ⟨[⟨1, ['A']⟩, ⟨2, ['C']⟩], [], [], 3⟩

/-- Witness for C6: creating the fresh edge `1.end -> 2.start` on the
two-node graph succeeds and lands in every index, a second creation
returns the existing edge without growing the graph, and a dangling side
fails. -/
theorem create_edge_spec_witness :
    (create_edge twoNodeG ⟨1, true⟩ ⟨2, false⟩ =
      (some (edgeFromSides ⟨1, true⟩ ⟨2, false⟩),
        { twoNodeG with edges := twoNodeG.edges ++ [edgeFromSides ⟨1, true⟩ ⟨2, false⟩] }) ∧
     edgeFromSides ⟨1, true⟩ ⟨2, false⟩ ∈ (create_edge twoNodeG ⟨1, true⟩ ⟨2, false⟩).2.edges ∧
     edge_by_sides (create_edge twoNodeG ⟨1, true⟩ ⟨2, false⟩).2 (minmaxNS ⟨1, true⟩ ⟨2, false⟩) =
       some (edgeFromSides ⟨1, true⟩ ⟨2, false⟩) ∧
     edge_index (create_edge twoNodeG ⟨1, true⟩ ⟨2, false⟩).2 (edgeFromSides ⟨1, true⟩ ⟨2, false⟩) =
       some twoNodeG.edges.length ∧
     (if (⟨1, true⟩ : NodeSide).is_end then
       ((2 : Int), false) ∈ edges_on_end (create_edge twoNodeG ⟨1, true⟩ ⟨2, false⟩).2 1
      else
       ((2 : Int), !false) ∈ edges_on_start (create_edge twoNodeG ⟨1, true⟩ ⟨2, false⟩).2 1) ∧
     (if (⟨2, false⟩ : NodeSide).is_end then
       ((1 : Int), true) ∈ edges_on_end (create_edge twoNodeG ⟨1, true⟩ ⟨2, false⟩).2 2
      else
       ((1 : Int), !true) ∈ edges_on_start (create_edge twoNodeG ⟨1, true⟩ ⟨2, false⟩).2 2)) ∧
    create_edge (create_edge twoNodeG ⟨1, true⟩ ⟨2, false⟩).2 ⟨1, true⟩ ⟨2, false⟩ =
      (some (edgeFromSides ⟨1, true⟩ ⟨2, false⟩), (create_edge twoNodeG ⟨1, true⟩ ⟨2, false⟩).2) ∧
    create_edge twoNodeG ⟨1, true⟩ ⟨5, false⟩ = (none, twoNodeG) := by
  refine ⟨?_, ?_, ?_⟩
  · exact (create_edge_spec twoNodeG ⟨1, true⟩ ⟨2, false⟩).2.2
      (by decide) (by decide) (by decide)
  · exact ((create_edge_spec (create_edge twoNodeG ⟨1, true⟩ ⟨2, false⟩).2
      ⟨1, true⟩ ⟨2, false⟩).1 (edgeFromSides ⟨1, true⟩ ⟨2, false⟩) (by decide))
  · exact (create_edge_spec twoNodeG ⟨1, true⟩ ⟨5, false⟩).2.1
      (by decide) (Or.inr (by decide))

/-- Node ids a graph's paths reference through their mappings. -/
def pathNodeIds (g : VG) : List Int :=
  g.pathList.flatMap Prod.snd

/-- Modelled from the spec: the body of `VG::increment_node_ids` (declared
vg.hpp:367) is in the missing vg.cpp.  Header: "Add the given value to all
node IDs.  Preserves the paths." — every node id, every edge endpoint and
every path mapping is shifted by the increment. -/
def increment_node_ids (g : VG) (k : Int) : VG :=
  { g with
    nodes := g.nodes.map (fun n => { n with id := n.id + k }),
    edges := g.edges.map (fun e => { e with «from» := e.«from» + k, «to» := e.«to» + k }),
    pathList := g.pathList.map (fun p => (p.1, p.2.map (· + k))) }

/-- Modelled from the spec: the body of `VG::swap_node_id` (declared
vg.hpp:373) is in the missing vg.cpp.  Header: "Change the ID of the node
with the first id to the second, new ID not used by any node.  Invalidates
any paths containing the node, since they are not updated." — the node
record and every edge endpoint referencing it are rewritten; the path
mappings are deliberately left alone. -/
def swap_node_id (g : VG) (node_id new_id : Int) : VG :=
  { g with
    nodes := g.nodes.map (fun n => if n.id = node_id then { n with id := new_id } else n),
    edges := g.edges.map (fun e =>
      { e with «from» := if e.«from» = node_id then new_id else e.«from»,
               «to» := if e.«to» = node_id then new_id else e.«to» }) }

/-- C9: `increment_node_ids(k)` rewrites every edge endpoint and updates
every path mapping, so paths valid before the shift stay valid after it;
`swap_node_id(old, new)` rewrites every edge endpoint referencing the
renamed node but leaves the path mappings untouched, so a path that
contained the old id still references it while no node carries it any
more (the path is invalidated). -/
theorem id_edit_path_effects (g : VG) (k node_id new_id : Int) :
    (increment_node_ids g k).edges =
      g.edges.map (fun e => { e with «from» := e.«from» + k, «to» := e.«to» + k }) ∧
    (increment_node_ids g k).pathList =
      g.pathList.map (fun p => (p.1, p.2.map (· + k))) ∧
    ((∀ i ∈ pathNodeIds g, has_node g i = true) →
      ∀ i ∈ pathNodeIds (increment_node_ids g k),
        has_node (increment_node_ids g k) i = true) ∧
    (swap_node_id g node_id new_id).edges =
      g.edges.map (fun e =>
        { e with «from» := if e.«from» = node_id then new_id else e.«from»,
                 «to» := if e.«to» = node_id then new_id else e.«to» }) ∧
    (swap_node_id g node_id new_id).pathList = g.pathList ∧
    (node_id ∈ pathNodeIds g → node_id ≠ new_id →
      node_id ∈ pathNodeIds (swap_node_id g node_id new_id) ∧
      has_node (swap_node_id g node_id new_id) node_id = false) := by
  refine ⟨rfl, rfl, ?_, rfl, rfl, ?_⟩
  · intro hvalid i hi
    simp only [pathNodeIds, increment_node_ids, List.mem_flatMap, List.mem_map] at hi
    rcases hi with ⟨p', ⟨p, hp, rfl⟩, hip⟩
    simp only [List.mem_map] at hip
    rcases hip with ⟨j, hj, rfl⟩
    have hjv : has_node g j = true :=
      hvalid j (List.mem_flatMap.2 ⟨p, hp, hj⟩)
    rw [has_node, node_by_id, Option.isSome_iff_exists] at hjv
    rcases hjv with ⟨n, hn⟩
    have hnm := List.mem_of_find?_eq_some hn
    have hnid := List.find?_some hn
    simp only [beq_iff_eq] at hnid
    rw [has_node, node_by_id]
    rw [Option.isSome_iff_exists]
    have : (increment_node_ids g k).nodes.find?
        (fun m => m.id == j + k) |>.isSome := by
      rw [List.find?_isSome]
      refine ⟨{ n with id := n.id + k }, ?_, ?_⟩
      · simp only [increment_node_ids]
        exact List.mem_map_of_mem _ hnm
      · simp [hnid]
    rw [Option.isSome_iff_exists] at this
    exact this
  · intro hmem hne
    refine ⟨hmem, ?_⟩
    rw [has_node, node_by_id]
    have hnone : (swap_node_id g node_id new_id).nodes.find?
        (fun n => n.id == node_id) = none := by
      rw [List.find?_eq_none]
      intro n hn hb
      simp only [beq_iff_eq] at hb
      simp only [swap_node_id, List.mem_map] at hn
      rcases hn with ⟨m, _, rfl⟩
      by_cases hm : m.id = node_id
      · rw [if_pos hm] at hb
        exact hne hb.symm
      · rw [if_neg hm] at hb
        exact hm hb
    rw [hnone]
    rfl

/-- A small graph carrying one named path over its two nodes. -/
def pathG : VG :=
  ⟨[⟨1, ['A']⟩, ⟨2, ['C']⟩], [⟨1, 2, false, false⟩], [("p", [1, 2])], 3⟩

/-- Witness for C9 on `pathG`: after incrementing by 10 the shifted path
mapping 11 still resolves, while after swapping id 1 to 5 the untouched
path still references 1, which no longer names a node. -/
theorem id_edit_path_effects_witness :
    has_node (increment_node_ids pathG 10) 11 = true ∧
    (1 : Int) ∈ pathNodeIds (swap_node_id pathG 1 5) ∧
    has_node (swap_node_id pathG 1 5) 1 = false := by
  have h := id_edit_path_effects pathG 10 1 5
  refine ⟨h.2.2.1 (by decide) 11 (by decide), ?_, ?_⟩
  · exact (h.2.2.2.2.2 (by decide) (by decide)).1
  · exact (h.2.2.2.2.2 (by decide) (by decide)).2

/-- Embeds `VG::max_node_id` (declared vg.hpp:362): the largest node id
(the fold is started at 0; ids are positive per §3 invariant 6). -/
def max_node_id (g : VG) : Int :=
  g.nodes.foldl (fun a n => max a n.id) 0

/-- Fresh id allocation used by node creation: spec §4.2, `create_node`
assigns `max_id + 1` by default. -/
def fresh_id (g : VG) : Int :=
  max_node_id g + 1

/-- Sequence held by the node with the given id, or `[]` when absent. -/
def seq_of (g : VG) (i : Int) : List Char :=
  ((node_by_id g i).map Node.sequence).getD []

/-- Modelled from the spec: the body of `VG::divide_node` (declared
vg.hpp:581) is in the missing vg.cpp.  Spec §4.3: split the node's
sequence at `pos` (`1 <= pos < len`); the left part keeps the id, the
right part gets a new id; edges on the node's right side move to the
right part; a new edge `left.right -> right.left` is inserted; path
mappings crossing the node are split (forward orientation only,
vg.hpp:580).  Spec §7: an offset of 0 or the sequence length produces a
zero-length part and is converted to a no-op.  Returns the graph and the
id of the right part (the original id when nothing was divided). -/
def divide_node (g : VG) (nid : Int) (pos : Int) : VG × Int :=
  match node_by_id g nid with
  | none => (g, nid)
  | some n =>
    if pos ≤ 0 ∨ (n.sequence.length : Int) ≤ pos then (g, nid)
    else
      let rid := fresh_id g
      (⟨g.nodes.map (fun m => if m.id = nid then ⟨nid, n.sequence.take pos.toNat⟩ else m) ++
          [⟨rid, n.sequence.drop pos.toNat⟩],
        g.edges.map (fun e =>
          ⟨if e.«from» = nid ∧ !e.from_start then rid else e.«from»,
           if e.«to» = nid ∧ e.to_end then rid else e.«to»,
           e.from_start, e.to_end⟩) ++ [⟨nid, rid, false, false⟩],
        g.pathList.map (fun p =>
          (p.1, p.2.flatMap (fun i => if i = nid then [nid, rid] else [i]))),
        g.current_id⟩, rid)

/-- Ascending unique offsets, as iteration over the C++ `set<int64_t>`
produces them. -/
def sortOffsets (l : List Int) : List Int :=
  (l.insertionSort (· ≤ ·)).dedup

/-- Modelled from the spec: the per-node loop of `ensure_breakpoints`
(spec §4.3) — walk the ascending offsets keeping the id of the fragment
still to be divided (`cur`) and the absolute offset at which it starts
(`curOff`); offsets falling at 0 or at/after the end of the current
fragment are ignored (vg.hpp:410-412: offsets "may include 0 and
1-past-the-end, which should be ignored"); interior offsets divide the
fragment.  Returns the graph and the `(absolute offset, new node id)`
translation entries. -/
def ensureOne (g : VG) (cur curOff : Int) : List Int → VG × List (Int × Int)
  | [] => (g, [])
  | o :: rest =>
    match node_by_id g cur with
    | none => (g, [])
    | some n =>
      let rel := o - curOff
      if rel ≤ 0 ∨ (n.sequence.length : Int) ≤ rel then
        ensureOne g cur curOff rest
      else
        let d := divide_node g cur rel
        let r := ensureOne d.1 d.2 o rest
        (r.1, (o, d.2) :: r.2)

/-- Modelled from the spec: the body of `VG::ensure_breakpoints`
(declared vg.hpp:415) is in the missing vg.cpp.  Spec §4.3:
"idempotently applies divide_node at every requested interior offset;
0 and end offsets are no-ops", returning a map from old node id to a map
from old offset to the node now starting there.  Entries whose node id
does not name a node are skipped. -/
def ensure_breakpoints (g : VG) :
    List (Int × List Int) → VG × List (Int × List (Int × Int))
  | [] => (g, [])
  | (nid, offs) :: rest =>
    if has_node g nid then
      let r1 := ensureOne g nid 0 (sortOffsets offs)
      let r2 := ensure_breakpoints r1.1 rest
      (r2.1, (nid, r1.2) :: r2.2)
    else ensure_breakpoints g rest

/-- Lookup in an association list keyed by node id. -/
def lookupTr {α : Type} (l : List (Int × α)) (k : Int) : Option α :=
  (l.find? (fun p => p.1 == k)).map Prod.snd

/-- Length of the fragment that keeps the node's id once the offsets have
been applied from `curOff` to a fragment of the given length: the first
interior relative offset, or the full length when none is interior. -/
def firstCutLen (curOff : Int) (len : Nat) : List Int → Nat
  | [] => len
  | o :: rest =>
    let rel := o - curOff
    if rel ≤ 0 ∨ (len : Int) ≤ rel then firstCutLen curOff len rest
    else rel.toNat

lemma foldl_max_ge_init : ∀ (l : List Node) (a : Int),
    a ≤ l.foldl (fun a n => max a n.id) a := by
  intro l
  induction l with
  | nil => intro a; exact le_refl a
  | cons n rest ih =>
    intro a
    exact le_trans (le_max_left a n.id) (ih (max a n.id))

lemma foldl_max_ge_mem : ∀ (l : List Node) (a : Int) (n : Node), n ∈ l →
    n.id ≤ l.foldl (fun a n => max a n.id) a := by
  intro l
  induction l with
  | nil => intro a n hn; cases hn
  | cons m rest ih =>
    intro a n hn
    rcases List.mem_cons.1 hn with rfl | hn'
    · exact le_trans (le_max_right a n.id) (foldl_max_ge_init rest _)
    · exact ih _ n hn'

lemma id_lt_fresh {g : VG} {n : Node} (hn : n ∈ g.nodes) : n.id < fresh_id g := by
  have := foldl_max_ge_mem g.nodes 0 n hn
  rw [fresh_id, max_node_id]
  omega

lemma node_by_id_fresh (g : VG) : node_by_id g (fresh_id g) = none := by
  rw [node_by_id, List.find?_eq_none]
  intro n hn hb
  simp only [beq_iff_eq] at hb
  exact absurd hb (by have := id_lt_fresh hn; omega)

lemma node_by_id_some {g : VG} {i : Int} {n : Node}
    (h : node_by_id g i = some n) : n ∈ g.nodes ∧ n.id = i := by
  refine ⟨List.mem_of_find?_eq_some h, ?_⟩
  have := List.find?_some h
  simpa using this

lemma find?_map_congr {α : Type} (f : α → α) (p : α → Bool) :
    ∀ l : List α, (∀ x ∈ l, p (f x) = p x) →
      (l.map f).find? p = (l.find? p).map f := by
  intro l
  induction l with
  | nil => intro _; rfl
  | cons a rest ih =>
    intro h
    rcases hpa : p a with _ | _
    · have hpfa : p (f a) = false := by rw [h a (List.mem_cons_self _ _), hpa]
      rw [List.map_cons, List.find?_cons_of_neg _ (by rw [hpfa]; exact Bool.false_ne_true),
        List.find?_cons_of_neg _ (by rw [hpa]; exact Bool.false_ne_true)]
      exact ih (fun x hx => h x (List.mem_cons_of_mem _ hx))
    · have hpfa : p (f a) = true := by rw [h a (List.mem_cons_self _ _), hpa]
      rw [List.map_cons, List.find?_cons_of_pos _ hpfa, List.find?_cons_of_pos _ hpa]
      rfl

lemma divide_node_preserves {g : VG} {nid pos nid' : Int} {n' : Node}
    (hne : nid' ≠ nid) (h : node_by_id g nid' = some n') :
    node_by_id (divide_node g nid pos).1 nid' = some n' := by
  rcases hc : node_by_id g nid with _ | n
  · simp only [divide_node, hc]
    exact h
  · by_cases hskip : pos ≤ 0 ∨ (n.sequence.length : Int) ≤ pos
    · simp only [divide_node, hc, if_pos hskip]
      exact h
    · simp only [divide_node, hc, if_neg hskip]
      simp only [node_by_id]
      show List.find? _ (_ ++ _) = _
      rw [List.find?_append]
      have hmap : (g.nodes.map
          (fun m => if m.id = nid then ⟨nid, n.sequence.take pos.toNat⟩ else m)).find?
            (fun m => m.id == nid') =
          (g.nodes.find? (fun m => m.id == nid')).map
            (fun m => if m.id = nid then ⟨nid, n.sequence.take pos.toNat⟩ else m) := by
        refine find?_map_congr _ _ g.nodes ?_
        intro x _
        by_cases hx : x.id = nid
        · rw [if_pos hx]
          simp only [hx]
        · rw [if_neg hx]
      rw [node_by_id] at h
      rw [hmap, h]
      have hn'ne : ¬(n'.id = nid) := by
        rw [(node_by_id_some h).2]
        exact hne
      simp [if_neg hn'ne]

lemma divide_node_interior {g : VG} {nid pos : Int} {n : Node}
    (h : node_by_id g nid = some n)
    (h0 : 0 < pos) (hlen : pos < (n.sequence.length : Int)) :
    (divide_node g nid pos).2 = fresh_id g ∧
    node_by_id (divide_node g nid pos).1 nid = some ⟨nid, n.sequence.take pos.toNat⟩ ∧
    node_by_id (divide_node g nid pos).1 (fresh_id g) =
      some ⟨fresh_id g, n.sequence.drop pos.toNat⟩ := by
  have hcond : ¬(pos ≤ 0 ∨ (n.sequence.length : Int) ≤ pos) := by omega
  simp only [divide_node, h, if_neg hcond]
  refine ⟨trivial, ?_, ?_⟩
  · simp only [node_by_id]
    show List.find? _ (_ ++ _) = _
    rw [List.find?_append]
    have hmap : (g.nodes.map
        (fun m => if m.id = nid then ⟨nid, n.sequence.take pos.toNat⟩ else m)).find?
          (fun m => m.id == nid) =
        (g.nodes.find? (fun m => m.id == nid)).map
          (fun m => if m.id = nid then ⟨nid, n.sequence.take pos.toNat⟩ else m) := by
      refine find?_map_congr _ _ g.nodes ?_
      intro x _
      by_cases hx : x.id = nid
      · rw [if_pos hx]
        simp [hx]
      · rw [if_neg hx]
    rw [node_by_id] at h
    rw [hmap, h]
    have : n.id = nid := (node_by_id_some h).2
    simp [this]
  · simp only [node_by_id]
    show List.find? _ (_ ++ _) = _
    rw [List.find?_append]
    have hnone : g.nodes.find? (fun m => m.id == fresh_id g) = none := by
      have := node_by_id_fresh g
      rwa [node_by_id] at this
    have hmap : (g.nodes.map
        (fun m => if m.id = nid then ⟨nid, n.sequence.take pos.toNat⟩ else m)).find?
          (fun m => m.id == fresh_id g) =
        (g.nodes.find? (fun m => m.id == fresh_id g)).map
          (fun m => if m.id = nid then ⟨nid, n.sequence.take pos.toNat⟩ else m) := by
      refine find?_map_congr _ _ g.nodes ?_
      intro x hx
      by_cases hxn : x.id = nid
      · rw [if_pos hxn]
        simp only [hxn]
      · rw [if_neg hxn]
    rw [hmap, hnone]
    simp

lemma firstCutLen_le (curOff : Int) (len : Nat) :
    ∀ offs : List Int, firstCutLen curOff len offs ≤ len := by
  intro offs
  induction offs with
  | nil => simp [firstCutLen]
  | cons o rest ih =>
    rw [firstCutLen]
    by_cases hc : o - curOff ≤ 0 ∨ (len : Int) ≤ o - curOff
    · rw [if_pos hc]; exact ih
    · rw [if_neg hc]
      omega

lemma firstCutLen_pos (curOff : Int) (len : Nat) (hl : 0 < len) :
    ∀ offs : List Int, 0 < firstCutLen curOff len offs := by
  intro offs
  induction offs with
  | nil => simpa [firstCutLen] using hl
  | cons o rest ih =>
    rw [firstCutLen]
    by_cases hc : o - curOff ≤ 0 ∨ (len : Int) ≤ o - curOff
    · rw [if_pos hc]; exact ih
    · rw [if_neg hc]
      omega

lemma firstCutLen_skip (len : Nat) :
    ∀ (offs : List Int) (curOff : Int), offs.Pairwise (· ≤ ·) →
      ∀ o ∈ offs, o - curOff ≤ 0 ∨
        ((firstCutLen curOff len offs : Int) ≤ o - curOff) := by
  intro offs
  induction offs with
  | nil => intro curOff _ o ho; cases ho
  | cons o1 rest ih =>
    intro curOff hsort o ho
    rw [List.pairwise_cons] at hsort
    rw [firstCutLen]
    by_cases hc : o1 - curOff ≤ 0 ∨ (len : Int) ≤ o1 - curOff
    · rw [if_pos hc]
      rcases List.mem_cons.1 ho with rfl | ho'
      · rcases hc with hc | hc
        · exact Or.inl hc
        · refine Or.inr ?_
          have := firstCutLen_le curOff len rest
          omega
      · exact ih curOff hsort.2 o ho'
    · rw [if_neg hc]
      rcases List.mem_cons.1 ho with rfl | ho'
      · refine Or.inr ?_; omega
      · have := hsort.1 o ho'
        refine Or.inr ?_; omega

lemma sortOffsets_sorted (l : List Int) : (sortOffsets l).Pairwise (· ≤ ·) :=
  List.Pairwise.sublist (List.dedup_sublist _) (List.sorted_insertionSort _ l)

lemma sortOffsets_nodup (l : List Int) : (sortOffsets l).Nodup :=
  List.nodup_dedup _

lemma mem_sortOffsets {l : List Int} {o : Int} (h : o ∈ sortOffsets l) : o ∈ l :=
  (List.mem_insertionSort _).1 (List.mem_dedup.1 h)

lemma ensureOne_preserves :
    ∀ (offs : List Int) (g : VG) (cur curOff nid' : Int) (n' : Node),
      nid' ≠ cur → node_by_id g nid' = some n' →
      node_by_id (ensureOne g cur curOff offs).1 nid' = some n' := by
  intro offs
  induction offs with
  | nil =>
    intro g cur curOff nid' n' _ h
    simpa [ensureOne] using h
  | cons o rest ih =>
    intro g cur curOff nid' n' hne h
    rcases hc : node_by_id g cur with _ | n
    · simpa [ensureOne, hc] using h
    · by_cases hskip : o - curOff ≤ 0 ∨ (n.sequence.length : Int) ≤ o - curOff
      · simp only [ensureOne, hc, if_pos hskip]
        exact ih g cur curOff nid' n' hne h
      · simp only [ensureOne, hc, if_neg hskip]
        have hd2 : (divide_node g cur (o - curOff)).2 = fresh_id g :=
          (divide_node_interior hc (by omega) (by omega)).1
        have hpres : node_by_id (divide_node g cur (o - curOff)).1 nid' = some n' :=
          divide_node_preserves hne h
        have hfr : nid' ≠ fresh_id g := by
          have h1 := id_lt_fresh (node_by_id_some h).1
          rw [(node_by_id_some h).2] at h1
          omega
        rw [hd2]
        exact ih _ _ _ _ _ hfr hpres

lemma ensureOne_cur :
    ∀ (offs : List Int) (g : VG) (cur curOff : Int) (t : List Char),
      node_by_id g cur = some ⟨cur, t⟩ →
      node_by_id (ensureOne g cur curOff offs).1 cur =
        some ⟨cur, t.take (firstCutLen curOff t.length offs)⟩ := by
  intro offs
  induction offs with
  | nil =>
    intro g cur curOff t h
    rw [firstCutLen, List.take_length]
    simpa [ensureOne] using h
  | cons o rest ih =>
    intro g cur curOff t h
    by_cases hskip : o - curOff ≤ 0 ∨ ((t.length : Int) ≤ o - curOff)
    · rw [firstCutLen, if_pos hskip]
      simp only [ensureOne, h]
      rw [if_pos hskip]
      exact ih g cur curOff t h
    · rw [firstCutLen, if_neg hskip]
      simp only [ensureOne, h]
      rw [if_neg hskip]
      have h0 : 0 < o - curOff := by omega
      have hlen : o - curOff < (t.length : Int) := by omega
      have hint := divide_node_interior h h0 hlen
      rw [hint.1]
      have hne : cur ≠ fresh_id g := by
        have h1 := id_lt_fresh (node_by_id_some h).1
        simp only at h1
        omega
      exact ensureOne_preserves rest _ (fresh_id g) o cur _ hne hint.2.1

lemma ensureOne_skip_all :
    ∀ (offs : List Int) (g : VG) (cur curOff : Int),
      (∀ n : Node, node_by_id g cur = some n →
        ∀ o ∈ offs, o - curOff ≤ 0 ∨ (n.sequence.length : Int) ≤ o - curOff) →
      ensureOne g cur curOff offs = (g, []) := by
  intro offs
  induction offs with
  | nil => intro g cur curOff _; rfl
  | cons o rest ih =>
    intro g cur curOff hyp
    rcases hc : node_by_id g cur with _ | n
    · simp [ensureOne, hc]
    · have hco := hyp n hc o (List.mem_cons_self _ _)
      simp only [ensureOne, hc, if_pos hco]
      exact ih g cur curOff (fun n' hn' o' ho' => by
        rw [hc] at hn'
        cases hn'
        exact hyp n hc o' (List.mem_cons_of_mem _ ho'))

lemma ensureOne_has_node (offs : List Int) (g : VG) (cur curOff k : Int)
    (h : has_node g k = true) :
    has_node (ensureOne g cur curOff offs).1 k = true := by
  rw [has_node, Option.isSome_iff_exists] at h
  rcases h with ⟨n, hn⟩
  by_cases hk : k = cur
  · subst hk
    rcases n with ⟨nid, seq⟩
    have hid : nid = k := by
      have := (node_by_id_some hn).2
      simpa using this
    subst hid
    rw [has_node, ensureOne_cur offs g nid curOff seq hn]
    rfl
  · rw [has_node, ensureOne_preserves offs g cur curOff k n hk hn]
    rfl

lemma ensureOne_keys :
    ∀ (offs : List Int) (g : VG) (cur curOff : Int) (s : List Char),
      node_by_id g cur = some ⟨cur, s.drop curOff.toNat⟩ →
      0 ≤ curOff →
      offs.Pairwise (· ≤ ·) → offs.Nodup →
      ((ensureOne g cur curOff offs).2).map Prod.fst =
        offs.filter (fun o => decide (curOff < o ∧ o < (s.length : Int))) := by
  intro offs
  induction offs with
  | nil => intro g cur curOff s _ _ _ _; rfl
  | cons o rest ih =>
    intro g cur curOff s h h0 hsort hnd
    rw [List.pairwise_cons] at hsort
    rw [List.nodup_cons] at hnd
    have hlendrop : (s.drop curOff.toNat).length = s.length - curOff.toNat :=
      List.length_drop _ _
    by_cases hskip : o - curOff ≤ 0 ∨ ((s.drop curOff.toNat).length : Int) ≤ o - curOff
    · simp only [ensureOne, h]
      rw [if_pos hskip]
      have hcnd : (decide (curOff < o ∧ o < (s.length : Int))) = false := by
        rw [decide_eq_false_iff_not]
        rw [hlendrop] at hskip
        omega
      rw [List.filter_cons, if_neg (by rw [hcnd]; exact Bool.false_ne_true)]
      exact ih g cur curOff s h h0 hsort.2 hnd.2
    · simp only [ensureOne, h]
      rw [if_neg hskip]
      have h0' : 0 < o - curOff := by omega
      have hlen' : o - curOff < ((s.drop curOff.toNat).length : Int) := by omega
      have hint := divide_node_interior h h0' hlen'
      have hcnd : (decide (curOff < o ∧ o < (s.length : Int))) = true := by
        rw [decide_eq_true_eq]
        rw [hlendrop] at hlen'
        omega
      rw [List.filter_cons, if_pos hcnd]
      simp only [List.map_cons]
      have hfrag : node_by_id (divide_node g cur (o - curOff)).1 (fresh_id g) =
          some ⟨fresh_id g, s.drop o.toNat⟩ := by
        have := hint.2.2
        rw [List.drop_drop] at this
        have harith : curOff.toNat + (o - curOff).toNat = o.toNat := by omega
        rwa [harith] at this
      have htail := ih (divide_node g cur (o - curOff)).1 (fresh_id g) o s
        hfrag (by omega) hsort.2 hnd.2
      rw [hint.1]
      rw [htail]
      have hfc : ∀ o' ∈ rest,
          (decide (o < o' ∧ o' < (s.length : Int))) =
          (decide (curOff < o' ∧ o' < (s.length : Int))) := by
        intro o' ho'
        have hle := hsort.1 o' ho'
        have hneq : o ≠ o' := fun he => hnd.1 (he ▸ ho')
        rw [decide_eq_decide]
        constructor
        · rintro ⟨h1, h2⟩; exact ⟨by omega, h2⟩
        · rintro ⟨h1, h2⟩; exact ⟨by omega, h2⟩
      rw [List.filter_congr hfc]

lemma ensureOne_fragments :
    ∀ (offs : List Int) (g : VG) (cur curOff : Int) (s : List Char),
      node_by_id g cur = some ⟨cur, s.drop curOff.toNat⟩ →
      0 ≤ curOff →
      ∀ q ∈ (ensureOne g cur curOff offs).2,
        node_by_id g q.2 = none ∧
        ∃ t : List Char, t ≠ [] ∧
          node_by_id (ensureOne g cur curOff offs).1 q.2 = some ⟨q.2, t⟩ ∧
          (s.drop q.1.toNat).take t.length = t := by
  intro offs
  induction offs with
  | nil => intro g cur curOff s _ _ q hq; cases hq
  | cons o rest ih =>
    intro g cur curOff s h h0 q hq
    have hlendrop : (s.drop curOff.toNat).length = s.length - curOff.toNat :=
      List.length_drop _ _
    by_cases hskip : o - curOff ≤ 0 ∨ ((s.drop curOff.toNat).length : Int) ≤ o - curOff
    · simp only [ensureOne, h] at hq ⊢
      rw [if_pos hskip] at hq ⊢
      exact ih g cur curOff s h h0 q hq
    · simp only [ensureOne, h] at hq ⊢
      rw [if_neg hskip] at hq ⊢
      have h0' : 0 < o - curOff := by omega
      have hlen' : o - curOff < ((s.drop curOff.toNat).length : Int) := by omega
      have hint := divide_node_interior h h0' hlen'
      have hfrag : node_by_id (divide_node g cur (o - curOff)).1 (fresh_id g) =
          some ⟨fresh_id g, s.drop o.toNat⟩ := by
        have := hint.2.2
        rw [List.drop_drop] at this
        have harith : curOff.toNat + (o - curOff).toNat = o.toNat := by omega
        rwa [harith] at this
      have hdroplen : 0 < (s.drop o.toNat).length := by
        rw [List.length_drop]
        rw [hlendrop] at hlen'
        omega
      rcases List.mem_cons.1 hq with rfl | hq'
      · -- the division made at this offset
        refine ⟨?_, ?_⟩
        · rw [hint.1]
          exact node_by_id_fresh g
        · rw [hint.1]
          refine ⟨(s.drop o.toNat).take
            (firstCutLen o (s.drop o.toNat).length rest), ?_, ?_, ?_⟩
          · rw [Ne, List.take_eq_nil_iff]
            push_neg
            refine ⟨?_, ?_⟩
            · have := firstCutLen_pos o (s.drop o.toNat).length hdroplen rest
              omega
            · intro he
              rw [he] at hdroplen
              simp at hdroplen
          · exact ensureOne_cur rest _ (fresh_id g) o _ hfrag
          · rw [List.length_take]
            by_cases hle : firstCutLen o (s.drop o.toNat).length rest ≤
                (s.drop o.toNat).length
            · rw [min_eq_left hle]
            · rw [min_eq_right (by omega)]
              rw [List.take_length, List.take_of_length_le (by omega)]
      · -- divisions made further right
        have hrec := ih (divide_node g cur (o - curOff)).1 (fresh_id g) o s
          hfrag (by omega) q (by rw [hint.1] at hq'; exact hq')
        refine ⟨?_, ?_⟩
        · rcases hg : node_by_id g q.2 with _ | m
          · rfl
          · exfalso
            by_cases hqc : q.2 = cur
            · subst hqc
              rw [hg] at h
              cases h
              rw [hint.2.1] at hrec
              exact Option.noConfusion hrec.1
            · have := @divide_node_preserves g cur (o - curOff) q.2 m hqc hg
              rw [this] at hrec
              exact Option.noConfusion hrec.1
        · rw [hint.1]
          exact hrec.2

lemma ensure_breakpoints_preserves :
    ∀ (bps : List (Int × List Int)) (g : VG) (nid' : Int) (n' : Node),
      node_by_id g nid' = some n' → (∀ pr ∈ bps, pr.1 ≠ nid') →
      node_by_id (ensure_breakpoints g bps).1 nid' = some n' := by
  intro bps
  induction bps with
  | nil => intro g nid' n' h _; simpa [ensure_breakpoints] using h
  | cons pr0 rest ih =>
    rcases pr0 with ⟨k, offs⟩
    intro g nid' n' h hkeys
    have hkne : nid' ≠ k :=
      fun he => hkeys (k, offs) (List.mem_cons_self _ _) he.symm
    by_cases hk : has_node g k = true
    · simp only [ensure_breakpoints, if_pos hk]
      exact ih _ nid' n'
        (ensureOne_preserves _ g k 0 nid' n' hkne h)
        (fun pr' hpr' => hkeys pr' (List.mem_cons_of_mem _ hpr'))
    · simp only [ensure_breakpoints, if_neg hk]
      exact ih _ nid' n' h
        (fun pr' hpr' => hkeys pr' (List.mem_cons_of_mem _ hpr'))

lemma ensure_breakpoints_run1_node :
    ∀ (bps : List (Int × List Int)) (g : VG),
      (bps.map Prod.fst).Nodup →
      ∀ pr ∈ bps, ∀ n : Node, node_by_id g pr.1 = some n →
        node_by_id (ensure_breakpoints g bps).1 pr.1 =
          some ⟨pr.1, n.sequence.take
            (firstCutLen 0 n.sequence.length (sortOffsets pr.2))⟩ := by
  intro bps
  induction bps with
  | nil => intro g _ pr hpr; cases hpr
  | cons pr0 rest ih =>
    rcases pr0 with ⟨k, offs⟩
    intro g hnd pr hpr n h
    simp only [List.map_cons, List.nodup_cons] at hnd
    rcases List.mem_cons.1 hpr with rfl | hpr'
    · have hk : has_node g k = true := by
        rw [has_node, h]; rfl
      simp only [ensure_breakpoints, if_pos hk]
      rcases n with ⟨ni, ns⟩
      have hni : ni = k := by simpa using (node_by_id_some h).2
      subst hni
      have hcur := ensureOne_cur (sortOffsets offs) g ni 0 ns h
      exact ensure_breakpoints_preserves rest _ ni _ hcur
        (fun pr' hpr' he => hnd.1 (by
          rw [← he]
          exact List.mem_map_of_mem Prod.fst hpr'))
    · have hkne : pr.1 ≠ k := fun he => hnd.1 (by
        rw [← he]
        exact List.mem_map_of_mem Prod.fst hpr')
      by_cases hk : has_node g k = true
      · simp only [ensure_breakpoints, if_pos hk]
        exact ih _ hnd.2 pr hpr' n
          (ensureOne_preserves _ g k 0 pr.1 n hkne h)
      · simp only [ensure_breakpoints, if_neg hk]
        exact ih _ hnd.2 pr hpr' n h

lemma ensure_breakpoints_noopAll :
    ∀ (bps : List (Int × List Int)) (g : VG),
      (∀ pr ∈ bps, ∀ n : Node, node_by_id g pr.1 = some n →
        ∀ o ∈ sortOffsets pr.2, o ≤ 0 ∨ (n.sequence.length : Int) ≤ o) →
      (ensure_breakpoints g bps).1 = g := by
  intro bps
  induction bps with
  | nil => intro g _; rfl
  | cons pr0 rest ih =>
    rcases pr0 with ⟨k, offs⟩
    intro g hyp
    by_cases hk : has_node g k = true
    · simp only [ensure_breakpoints, if_pos hk]
      have hskip := ensureOne_skip_all (sortOffsets offs) g k 0
        (fun n hn o ho => by
          have := hyp (k, offs) (List.mem_cons_self _ _) n hn o ho
          omega)
      rw [hskip]
      exact ih g (fun pr hpr => hyp pr (List.mem_cons_of_mem _ hpr))
    · simp only [ensure_breakpoints, if_neg hk]
      exact ih g (fun pr hpr => hyp pr (List.mem_cons_of_mem _ hpr))

lemma ensure_breakpoints_main :
    ∀ (bps : List (Int × List Int)) (g : VG),
      (bps.map Prod.fst).Nodup →
      (∀ pr ∈ bps, has_node g pr.1 = true) →
      ∀ pr ∈ bps, ∀ n : Node, node_by_id g pr.1 = some n →
        ∃ tr, lookupTr (ensure_breakpoints g bps).2 pr.1 = some tr ∧
          tr.map Prod.fst = (sortOffsets pr.2).filter
            (fun o => decide (0 < o ∧ o < (n.sequence.length : Int))) ∧
          ∀ q ∈ tr, ∃ t : List Char, t ≠ [] ∧
            node_by_id (ensure_breakpoints g bps).1 q.2 = some ⟨q.2, t⟩ ∧
            (n.sequence.drop q.1.toNat).take t.length = t := by
  intro bps
  induction bps with
  | nil => intro g _ _ pr hpr; cases hpr
  | cons pr0 rest ih =>
    rcases pr0 with ⟨k, offs⟩
    intro g hnd hex pr hpr n h
    simp only [List.map_cons, List.nodup_cons] at hnd
    rcases List.mem_cons.1 hpr with rfl | hpr'
    · have hk : has_node g k = true := by rw [has_node, h]; rfl
      simp only [ensure_breakpoints, if_pos hk]
      rcases n with ⟨ni, ns⟩
      have hni : ni = k := by simpa using (node_by_id_some h).2
      subst hni
      refine ⟨(ensureOne g ni 0 (sortOffsets offs)).2, ?_, ?_, ?_⟩
      · simp [lookupTr]
      · have hinv : node_by_id g ni = some ⟨ni, ns.drop (0 : Int).toNat⟩ := by
          simpa using h
        have := ensureOne_keys (sortOffsets offs) g ni 0 ns hinv (le_refl 0)
          (sortOffsets_sorted offs) (sortOffsets_nodup offs)
        simpa using this
      · intro q hq
        have hinv : node_by_id g ni = some ⟨ni, ns.drop (0 : Int).toNat⟩ := by
          simpa using h
        have hfr := ensureOne_fragments (sortOffsets offs) g ni 0 ns hinv
          (le_refl 0) q hq
        rcases hfr.2 with ⟨t, ht, hnode, hpfx⟩
        refine ⟨t, ht, ?_, hpfx⟩
        refine ensure_breakpoints_preserves rest _ q.2 _ hnode ?_
        intro pr' hpr' he
        have hex' := hex pr' (List.mem_cons_of_mem _ hpr')
        rw [has_node, Option.isSome_iff_exists] at hex'
        rcases hex' with ⟨m, hm⟩
        rw [he, hfr.1] at hm
        cases hm
    · have hkne : pr.1 ≠ k := fun he => hnd.1 (by
        rw [← he]
        exact List.mem_map_of_mem Prod.fst hpr')
      have hk : has_node g k = true := hex (k, offs) (List.mem_cons_self _ _)
      simp only [ensure_breakpoints, if_pos hk]
      have hlk : ∀ tr2, lookupTr ((k, (ensureOne g k 0 (sortOffsets offs)).2) :: tr2) pr.1 =
          lookupTr tr2 pr.1 := by
        intro tr2
        rw [lookupTr, lookupTr,
          List.find?_cons_of_neg _ (by simp [Ne.symm hkne])]
      have hrec := ih (ensureOne g k 0 (sortOffsets offs)).1 hnd.2
        (fun pr' hpr' => ensureOne_has_node _ _ _ _ _
          (hex pr' (List.mem_cons_of_mem _ hpr')))
        pr hpr' n
        (ensureOne_preserves _ g k 0 pr.1 n hkne h)
      rcases hrec with ⟨tr, htr, hkeys2, hfrags⟩
      exact ⟨tr, by rw [hlk]; exact htr, hkeys2, hfrags⟩

/-- C7: `ensure_breakpoints` is idempotent — applying it a second time with
the same breakpoint map leaves the graph exactly as after the first
application; offsets equal to 0 or to the node's sequence length produce no
division; and every interior offset of an existing node yields a division
at exactly that offset: the returned translation for the node lists
precisely the interior offsets, each mapped to a node of the result whose
(nonempty) sequence starts at that offset of the original sequence.
Hypotheses: the breakpoint keys are distinct and name existing nodes. -/
theorem ensure_breakpoints_spec (g : VG) (bps : List (Int × List Int))
    (hkeys : (bps.map Prod.fst).Nodup)
    (hex : ∀ pr ∈ bps, has_node g pr.1 = true) :
    (ensure_breakpoints (ensure_breakpoints g bps).1 bps).1 =
      (ensure_breakpoints g bps).1 ∧
    (∀ pr ∈ bps, ∀ n : Node, node_by_id g pr.1 = some n →
      (lookupTr (ensure_breakpoints g bps).2 pr.1).isSome = true ∧
      ((lookupTr (ensure_breakpoints g bps).2 pr.1).getD []).map Prod.fst =
        (sortOffsets pr.2).filter
          (fun o => decide (0 < o ∧ o < (n.sequence.length : Int))) ∧
      ∀ q ∈ (lookupTr (ensure_breakpoints g bps).2 pr.1).getD [],
        has_node (ensure_breakpoints g bps).1 q.2 = true ∧
        seq_of (ensure_breakpoints g bps).1 q.2 ≠ [] ∧
        (n.sequence.drop q.1.toNat).take
            (seq_of (ensure_breakpoints g bps).1 q.2).length =
          seq_of (ensure_breakpoints g bps).1 q.2) ∧
    (∀ (nid : Int) (offs : List Int) (n : Node), node_by_id g nid = some n →
      (∀ o ∈ offs, o ≤ 0 ∨ (n.sequence.length : Int) ≤ o) →
      ensure_breakpoints g [(nid, offs)] = (g, [(nid, [])])) := by
  refine ⟨?_, ?_, ?_⟩
  · refine ensure_breakpoints_noopAll bps _ ?_
    intro pr hpr n1 hn1 o ho
    have hex' := hex pr hpr
    rw [has_node, Option.isSome_iff_exists] at hex'
    rcases hex' with ⟨n0, hn0⟩
    have hrun := ensure_breakpoints_run1_node bps g hkeys pr hpr n0 hn0
    rw [hrun] at hn1
    cases hn1
    have hL := firstCutLen_le 0 n0.sequence.length (sortOffsets pr.2)
    have hsk := firstCutLen_skip n0.sequence.length (sortOffsets pr.2) 0
      (sortOffsets_sorted pr.2) o ho
    have hlen : (⟨pr.1, n0.sequence.take
        (firstCutLen 0 n0.sequence.length (sortOffsets pr.2))⟩ : Node).sequence.length =
        firstCutLen 0 n0.sequence.length (sortOffsets pr.2) := by
      simp only []
      rw [List.length_take]
      omega
    rw [hlen]
    omega
  · intro pr hpr n h
    rcases ensure_breakpoints_main bps g hkeys hex pr hpr n h with
      ⟨tr, htr, hkeys2, hfrags⟩
    rw [htr]
    refine ⟨rfl, hkeys2, ?_⟩
    intro q hq
    rcases hfrags q hq with ⟨t, ht, hnode, hpfx⟩
    have hseq : seq_of (ensure_breakpoints g bps).1 q.2 = t := by
      rw [seq_of, hnode]
      rfl
    rw [hseq]
    refine ⟨?_, ht, hpfx⟩
    rw [has_node, hnode]
    rfl
  · intro nid offs n h hno
    have hk : has_node g nid = true := by rw [has_node, h]; rfl
    have hskip := ensureOne_skip_all (sortOffsets offs) g nid 0
      (fun n' hn' o ho => by
        rw [h] at hn'
        cases hn'
        have := hno o (mem_sortOffsets ho)
        omega)
    simp only [ensure_breakpoints, if_pos hk, hskip]

/-- A graph with a four-character node, used to exercise breakpoints. -/
def splitG : VG :=
  ⟨[⟨1, ['A', 'C', 'G', 'T']⟩, ⟨2, ['X']⟩], [⟨1, 2, false, false⟩], [], 3⟩

/-- The breakpoint request for `splitG`: offsets 0 and 4 are no-ops, 2 is
interior. -/
def splitBps : List (Int × List Int) :=
  [(1, [0, 2, 4])]

/-- Witness for C7 on `splitG`: the second application changes nothing,
only the interior offset 2 is recorded as a division, and non-interior
offsets alone are a complete no-op. -/
theorem ensure_breakpoints_spec_witness :
    (ensure_breakpoints (ensure_breakpoints splitG splitBps).1 splitBps).1 =
      (ensure_breakpoints splitG splitBps).1 ∧
    ((lookupTr (ensure_breakpoints splitG splitBps).2 1).getD []).map Prod.fst =
      [2] ∧
    ensure_breakpoints splitG [(2, [0, 1])] = (splitG, [(2, [])]) := by
  have h := ensure_breakpoints_spec splitG splitBps (by decide) (by decide)
  refine ⟨h.1, ?_, ?_⟩
  · have h2 := (h.2.1 (1, [0, 2, 4]) (by decide)
      ⟨1, ['A', 'C', 'G', 'T']⟩ (by decide)).2.1
    rw [h2]
    decide
  · exact h.2.2 2 [0, 1] ⟨2, ['X']⟩ (by decide) (by decide)

/-- Forward virtual copy id of an original node in GCSA doubled-strand
emission: `2 * i` (vg.hpp:757-760). -/
def gcsaFwdId (i : Int) : Int := 2 * i

/-- Reverse-complement virtual copy id: `2 * i + 1` (vg.hpp:759-760). -/
def gcsaRcId (i : Int) : Int := 2 * i + 1

/-- A reversing edge connects two left sides or two right sides (spec
glossary): its `from_start` and `to_end` flags disagree. -/
def isReversing (e : Edge) : Bool := e.from_start != e.to_end

/-- Virtual node ids of the doubled-strand graph: each original node
appears as its forward and reverse-complement copies. -/
def gcsaNodeIds (g : VG) : List Int :=
  g.nodes.flatMap (fun n => [gcsaFwdId n.id, gcsaRcId n.id])

/-- Modelled from the spec: the body of
`VG::for_each_gcsa_kmer_position_parallel` (declared vg.hpp:769-772) is in
the missing vg.cpp.  Virtual edges per original edge, from the
vg.hpp:757-768 comment and spec §4.6: non-reversing edges link the
forward copy of the from node to the forward copy of the to node and the
rc copy of the to node to the rc copy of the from node; a right-right
reversing edge `a.r -> b.r` yields `2a -> 2b+1` and `2b -> 2a+1`; a
left-left reversing edge symmetrically yields `2a+1 -> 2b` and
`2b+1 -> 2a`. -/
def gcsaVirtualEdges (e : Edge) : List (Int × Int) :=
  if !e.from_start && !e.to_end then
    [(gcsaFwdId e.«from», gcsaFwdId e.«to»), (gcsaRcId e.«to», gcsaRcId e.«from»)]
  else if e.from_start && e.to_end then
    [(gcsaFwdId e.«to», gcsaFwdId e.«from»), (gcsaRcId e.«from», gcsaRcId e.«to»)]
  else if !e.from_start && e.to_end then
    [(gcsaFwdId e.«from», gcsaRcId e.«to»), (gcsaFwdId e.«to», gcsaRcId e.«from»)]
  else
    [(gcsaRcId e.«from», gcsaFwdId e.«to»), (gcsaRcId e.«to», gcsaFwdId e.«from»)]

/-- Strand mirror on virtual ids: pairs each forward copy with its
reverse-complement copy. -/
def gcsaMirror (v : Int) : Int :=
  if v % 2 == 0 then v + 1 else v - 1

lemma gcsaMirror_even (x : Int) : gcsaMirror (2 * x) = 2 * x + 1 := by
  rw [gcsaMirror]
  have h : (2 * x) % 2 = 0 := by omega
  simp [h]

lemma gcsaMirror_odd (x : Int) : gcsaMirror (2 * x + 1) = 2 * x := by
  rw [gcsaMirror]
  have h : (2 * x + 1) % 2 = 1 := by omega
  simp [h]

/-- C3: in GCSA2 doubled-strand emission every original node `i` is
represented by the forward virtual copy `2*i` and the reverse-complement
virtual copy `2*i+1`; a non-reversing edge yields virtual edges linking
forward copy to forward copy and rc copy to rc copy (same parity at both
endpoints), a reversing edge yields virtual edges each linking a forward
copy with a reverse-complement copy (opposite parities), with the two
spec-quoted cases computed exactly; every virtual edge stays on the
copies of the edge's own endpoints, and the virtual edge set is closed
under the strand mirror. -/
theorem gcsa_doubling (g : VG) (i a b : Int) (e : Edge) :
    (has_node g i = true →
      gcsaFwdId i ∈ gcsaNodeIds g ∧ gcsaRcId i ∈ gcsaNodeIds g ∧
      gcsaFwdId i = 2 * i ∧ gcsaRcId i = 2 * i + 1) ∧
    gcsaVirtualEdges ⟨a, b, false, false⟩ =
      [(2 * a, 2 * b), (2 * b + 1, 2 * a + 1)] ∧
    gcsaVirtualEdges ⟨a, b, false, true⟩ =
      [(2 * a, 2 * b + 1), (2 * b, 2 * a + 1)] ∧
    (isReversing e = false →
      ∀ p ∈ gcsaVirtualEdges e, p.1 % 2 = p.2 % 2) ∧
    (isReversing e = true →
      ∀ p ∈ gcsaVirtualEdges e, p.1 % 2 ≠ p.2 % 2) ∧
    (∀ p ∈ gcsaVirtualEdges e,
      (p.1 = gcsaFwdId e.«from» ∨ p.1 = gcsaRcId e.«from» ∨
       p.1 = gcsaFwdId e.«to» ∨ p.1 = gcsaRcId e.«to») ∧
      (p.2 = gcsaFwdId e.«from» ∨ p.2 = gcsaRcId e.«from» ∨
       p.2 = gcsaFwdId e.«to» ∨ p.2 = gcsaRcId e.«to») ∧
      (gcsaMirror p.2, gcsaMirror p.1) ∈ gcsaVirtualEdges e) := by
  refine ⟨?_, ?_, ?_, ?_, ?_, ?_⟩
  · intro hn
    rw [has_node, Option.isSome_iff_exists] at hn
    rcases hn with ⟨n, hn⟩
    rcases node_by_id_some hn with ⟨hmem, hid⟩
    subst hid
    refine ⟨?_, ?_, rfl, rfl⟩
    · exact List.mem_flatMap.2 ⟨n, hmem, by simp⟩
    · exact List.mem_flatMap.2 ⟨n, hmem, by simp⟩
  · simp [gcsaVirtualEdges, gcsaFwdId, gcsaRcId]
  · simp [gcsaVirtualEdges, gcsaFwdId, gcsaRcId]
  · intro hrev p hp
    rcases e with ⟨ea, eb, fs, te⟩
    cases fs <;> cases te <;> simp [isReversing] at hrev <;>
      simp [gcsaVirtualEdges, gcsaFwdId, gcsaRcId] at hp <;>
      rcases hp with rfl | rfl <;> simp <;> omega
  · intro hrev p hp
    rcases e with ⟨ea, eb, fs, te⟩
    cases fs <;> cases te <;> simp [isReversing] at hrev <;>
      simp [gcsaVirtualEdges, gcsaFwdId, gcsaRcId] at hp <;>
      rcases hp with rfl | rfl <;> simp <;> omega
  · intro p hp
    rcases e with ⟨ea, eb, fs, te⟩
    cases fs <;> cases te <;>
      simp [gcsaVirtualEdges, gcsaFwdId, gcsaRcId] at hp <;>
      rcases hp with rfl | rfl <;>
      refine ⟨by simp [gcsaFwdId, gcsaRcId], by simp [gcsaFwdId, gcsaRcId], ?_⟩ <;>
      simp [gcsaVirtualEdges, gcsaFwdId, gcsaRcId, gcsaMirror_even, gcsaMirror_odd]

/-- Witness for C3 on the two-node graph and the edge `1.r -> 2.r`:
both copies of node 1 are virtual nodes, and both spec-quoted edge
translations compute as stated. -/
theorem gcsa_doubling_witness :
    (gcsaFwdId 1 ∈ gcsaNodeIds twoNodeG ∧ gcsaRcId 1 ∈ gcsaNodeIds twoNodeG ∧
      gcsaFwdId 1 = 2 * 1 ∧ gcsaRcId 1 = 2 * 1 + 1) ∧
    gcsaVirtualEdges ⟨1, 2, false, false⟩ =
      [(2 * 1, 2 * 2), (2 * 2 + 1, 2 * 1 + 1)] ∧
    gcsaVirtualEdges ⟨1, 2, false, true⟩ =
      [(2 * 1, 2 * 2 + 1), (2 * 2, 2 * 1 + 1)] := by
  have h := gcsa_doubling twoNodeG 1 1 2 ⟨1, 2, false, true⟩
  exact ⟨h.1 (by decide), h.2.1, h.2.2.1⟩

/-- Traversals are modelled as `(node id, backward)` pairs (the C++
`NodeTraversal` holds a node pointer; within one graph ids are unique). -/
abbrev Trav := Int × Bool

/-- Base-pair length of the node a traversal visits. -/
def trav_len (g : VG) (t : Trav) : Nat :=
  (seq_of g t.1).length

/-- Modelled from the spec (§4.2 traversal helpers; `VG::nodes_prev`
declared vg.hpp:676): traversals attached to the left side of `t`, read
off the side list of that side; the stored flag is the predecessor's
orientation relative to the list's owner. -/
def nodes_prev (g : VG) (t : Trav) : List Trav :=
  if t.2 then (edges_on_end g t.1).map (fun p => (p.1, !p.2))
  else edges_on_start g t.1

/-- Modelled from the spec (§4.2; `VG::nodes_next` declared vg.hpp:678):
traversals attached to the right side of `t`; the successor is backward
iff the edge enters it on its right side. -/
def nodes_next (g : VG) (t : Trav) : List Trav :=
  if t.2 then (edges_on_start g t.1).map (fun p => (p.1, !p.2))
  else edges_on_end g t.1

/-- Total bp length of a walk. -/
def pathBpLen (g : VG) (p : List Trav) : Nat :=
  (p.map (trav_len g)).sum

/-- Modelled from the spec: the bodies of `VG::prev_kpaths_from_node` /
`next_kpaths_from_node` (declared vg.hpp:660-666) are in the missing
vg.cpp.  Spec §4.5: extensions grow away from the anchor until the
remaining bp budget is ≤ 0 or the node has no further edges on the
extension side; when the edge budget is exhausted the blocked neighbours
are reported to the maxed callback (paired here with the path reached so
far, which the caller's closure can observe) instead of extending.  The
walk direction is abstracted by the neighbour function; paths are
returned extension-first with the anchor last.  `fuel` bounds the
recursion depth: since node sequences are nonempty (§3) every extension
consumes at least one bp, so `k + 1` levels suffice for a budget of `k`. -/
def kpathsFrom (g : VG) (nbr : Trav → List Trav) :
    Nat → Trav → Int → Int → Bool → List Trav →
    List (List Trav) × List (Trav × List Trav)
  | 0, _, _, _, _, _ => ([], [])
  | fuel + 1, t, rem, edgeMax, edgeBounding, post =>
    let path := t :: post
    let rem' := rem - (trav_len g t : Int)
    let nbrs := nbr t
    if rem' ≤ 0 ∨ nbrs = [] then ([path], [])
    else if edgeBounding = true ∧ edgeMax ≤ 0 then
      ([], nbrs.map (fun p => (p, path)))
    else
      (nbrs.map (fun p =>
        kpathsFrom g nbr fuel p rem' (edgeMax - 1) edgeBounding path)).foldr
        (fun a b => (a.1 ++ b.1, a.2 ++ b.2)) ([], [])

/-- Leftward enumeration (`prev_kpaths_from_node`). -/
def prev_kpaths_from_node (g : VG) (fuel : Nat) (t : Trav)
    (len edge_max : Int) (edge_bounding : Bool) (post : List Trav) :
    List (List Trav) × List (Trav × List Trav) :=
  kpathsFrom g (nodes_prev g) fuel t len edge_max edge_bounding post

/-- Rightward enumeration (`next_kpaths_from_node`); its paths come out
reversed (anchor last), mirroring the leftward walk. -/
def next_kpaths_from_node (g : VG) (fuel : Nat) (t : Trav)
    (len edge_max : Int) (edge_bounding : Bool) (post : List Trav) :
    List (List Trav) × List (Trav × List Trav) :=
  kpathsFrom g (nodes_next g) fuel t len edge_max edge_bounding post

/-- Result of a k-path enumeration: the paths handed to the emit callback
and the traversals (with the partial path reached) handed to the
prev/next maxed callbacks. -/
structure KpathOut where
  emitted : List (List Trav)
  prevMaxed : List (Trav × List Trav)
  nextMaxed : List (Trav × List Trav)
deriving DecidableEq, Repr

/-- Modelled from the spec: `VG::for_each_kpath_of_node` (declared
vg.hpp:631-638) — compute the leftward and rightward extensions of the
node taken forward (vg.hpp:614), each against the full bp and edge
budgets, and emit their Cartesian product (spec §4.5). -/
def kpaths_of_node (g : VG) (nid : Int) (k edge_max : Int) : KpathOut :=
  let pk := prev_kpaths_from_node g (k.toNat + 1) (nid, false) k edge_max
    (decide (0 < edge_max)) []
  let nk := next_kpaths_from_node g (k.toNat + 1) (nid, false) k edge_max
    (decide (0 < edge_max)) []
  ⟨pk.1.flatMap (fun pp => nk.1.map (fun np => pp ++ np.reverse.tail)),
   pk.2, nk.2⟩

/-- Modelled from the spec: serial `VG::for_each_kpath` (declared
vg.hpp:615-618) — every node is considered in forward orientation as the
center (vg.hpp:613-614). -/
def for_each_kpath (g : VG) (k edge_max : Int) : KpathOut :=
  ⟨g.nodes.flatMap (fun n => (kpaths_of_node g n.id k edge_max).emitted),
   g.nodes.flatMap (fun n => (kpaths_of_node g n.id k edge_max).prevMaxed),
   g.nodes.flatMap (fun n => (kpaths_of_node g n.id k edge_max).nextMaxed)⟩

lemma mem_foldr_fst {α β γ : Type} (f : α → List β × List γ) :
    ∀ (l : List α) (p : β),
      (p ∈ ((l.map f).foldr (fun a b => (a.1 ++ b.1, a.2 ++ b.2)) ([], [])).1) ↔
      ∃ x ∈ l, p ∈ (f x).1 := by
  intro l
  induction l with
  | nil => intro p; simp
  | cons a rest ih =>
    intro p
    simp only [List.map_cons, List.foldr_cons, List.mem_append, ih, List.mem_cons]
    constructor
    · rintro (h | ⟨x, hx, hp⟩)
      · exact ⟨a, Or.inl rfl, h⟩
      · exact ⟨x, Or.inr hx, hp⟩
    · rintro ⟨x, rfl | hx, hp⟩
      · exact Or.inl hp
      · exact Or.inr ⟨x, hx, hp⟩

lemma mem_foldr_snd {α β γ : Type} (f : α → List β × List γ) :
    ∀ (l : List α) (q : γ),
      (q ∈ ((l.map f).foldr (fun a b => (a.1 ++ b.1, a.2 ++ b.2)) ([], [])).2) ↔
      ∃ x ∈ l, q ∈ (f x).2 := by
  intro l
  induction l with
  | nil => intro q; simp
  | cons a rest ih =>
    intro q
    simp only [List.map_cons, List.foldr_cons, List.mem_append, ih, List.mem_cons]
    constructor
    · rintro (h | ⟨x, hx, hq⟩)
      · exact ⟨a, Or.inl rfl, h⟩
      · exact ⟨x, Or.inr hx, hq⟩
    · rintro ⟨x, rfl | hx, hq⟩
      · exact Or.inl hq
      · exact Or.inr ⟨x, hx, hq⟩

/-- Last traversal of a walk (default when empty). -/
def lastT (l : List Trav) : Trav :=
  l.reverse.headI

lemma pathBpLen_cons (g : VG) (t : Trav) (l : List Trav) :
    pathBpLen g (t :: l) = trav_len g t + pathBpLen g l := by
  simp [pathBpLen]

lemma pathBpLen_append (g : VG) (l1 l2 : List Trav) :
    pathBpLen g (l1 ++ l2) = pathBpLen g l1 + pathBpLen g l2 := by
  simp [pathBpLen]

lemma pathBpLen_reverse (g : VG) (l : List Trav) :
    pathBpLen g l.reverse = pathBpLen g l := by
  rw [pathBpLen, pathBpLen, List.map_reverse, List.sum_reverse]

lemma headI_append_of_ne_nil (l1 l2 : List Trav) (h : l1 ≠ []) :
    (l1 ++ l2).headI = l1.headI := by
  cases l1 with
  | nil => exact absurd rfl h
  | cons a l => rfl

lemma kpathsFrom_emitted_spec (g : VG) (nbr : Trav → List Trav) :
    ∀ (fuel : Nat) (t : Trav) (rem em : Int) (eb : Bool) (post : List Trav)
      (p : List Trav),
      p ∈ (kpathsFrom g nbr fuel t rem em eb post).1 →
      (∃ ext, p = ext ++ t :: post) ∧
      (rem ≤ (pathBpLen g p : Int) - (pathBpLen g post : Int) ∨ nbr p.headI = []) ∧
      (eb = true → (p.length : Int) ≤ post.length + 1 + max em 0) := by
  intro fuel
  induction fuel with
  | zero =>
    intro t rem em eb post p hp
    simp [kpathsFrom] at hp
  | succ fuel ih =>
    intro t rem em eb post p hp
    simp only [kpathsFrom] at hp
    by_cases hA : rem - (trav_len g t : Int) ≤ 0 ∨ nbr t = []
    · rw [if_pos hA] at hp
      simp only [List.mem_singleton] at hp
      subst hp
      refine ⟨⟨[], rfl⟩, ?_, ?_⟩
      · rcases hA with hA | hA
        · left
          rw [pathBpLen_cons]
          push_cast
          omega
        · right
          simpa [List.headI] using hA
      · intro _
        simp only [List.length_cons]
        have := le_max_right em (0 : Int)
        push_cast
        omega
    · rw [if_neg hA] at hp
      by_cases hB : eb = true ∧ em ≤ 0
      · rw [if_pos hB] at hp
        simp at hp
      · rw [if_neg hB] at hp
        rw [mem_foldr_fst] at hp
        rcases hp with ⟨x, hx, hpx⟩
        rcases ih x (rem - (trav_len g t : Int)) (em - 1) eb (t :: post) p hpx with
          ⟨⟨ext', hext⟩, hdisj, hlen⟩
        refine ⟨⟨ext' ++ [x], by rw [hext]; simp⟩, ?_, ?_⟩
        · rcases hdisj with hd | hd
          · left
            rw [pathBpLen_cons] at hd
            push_cast at hd ⊢
            omega
          · right; exact hd
        · intro heb
          have hem : 0 < em := by
            rcases not_and_or.1 hB with h | h
            · exact absurd heb h
            · omega
          have := hlen heb
          simp only [List.length_cons] at this
          have hmax1 : max (em - 1) 0 = em - 1 := by omega
          have hmax2 : max em 0 = em := by omega
          rw [hmax1] at this
          rw [hmax2]
          push_cast at this ⊢
          omega

lemma kpathsFrom_maxed_spec (g : VG) (nbr : Trav → List Trav) :
    ∀ (fuel : Nat) (t : Trav) (rem em : Int) (eb : Bool) (post : List Trav)
      (q : Trav × List Trav),
      q ∈ (kpathsFrom g nbr fuel t rem em eb post).2 →
      (pathBpLen g q.2 : Int) - (pathBpLen g post : Int) < rem := by
  intro fuel
  induction fuel with
  | zero =>
    intro t rem em eb post q hq
    simp [kpathsFrom] at hq
  | succ fuel ih =>
    intro t rem em eb post q hq
    simp only [kpathsFrom] at hq
    by_cases hA : rem - (trav_len g t : Int) ≤ 0 ∨ nbr t = []
    · rw [if_pos hA] at hq
      simp at hq
    · rw [if_neg hA] at hq
      rw [not_or] at hA
      by_cases hB : eb = true ∧ em ≤ 0
      · rw [if_pos hB] at hq
        rcases List.mem_map.1 hq with ⟨x, _, rfl⟩
        rw [pathBpLen_cons]
        push_cast
        omega
      · rw [if_neg hB] at hq
        rw [mem_foldr_snd] at hq
        rcases hq with ⟨x, _, hqx⟩
        have := ih x (rem - (trav_len g t : Int)) (em - 1) eb (t :: post) q hqx
        rw [pathBpLen_cons] at this
        push_cast at this ⊢
        omega

lemma kpaths_of_node_bounds (g : VG) (nid : Int) (k em : Int) :
    (∀ p ∈ (kpaths_of_node g nid k em).emitted,
      p ≠ [] ∧
      (k ≤ (pathBpLen g p : Int) ∨ nodes_prev g p.headI = []) ∧
      (0 < em → (p.length : Int) - 1 ≤ 2 * em)) ∧
    (∀ q ∈ (kpaths_of_node g nid k em).prevMaxed, (pathBpLen g q.2 : Int) < k) ∧
    (∀ q ∈ (kpaths_of_node g nid k em).nextMaxed, (pathBpLen g q.2 : Int) < k) := by
  refine ⟨?_, ?_, ?_⟩
  · intro p hp
    simp only [kpaths_of_node, List.mem_flatMap, List.mem_map] at hp
    rcases hp with ⟨pp, hpp, np, hnp, rfl⟩
    rcases kpathsFrom_emitted_spec g (nodes_prev g) (k.toNat + 1) (nid, false) k em
      (decide (0 < em)) [] pp hpp with ⟨⟨ext1, he1⟩, hd1, hl1⟩
    rcases kpathsFrom_emitted_spec g (nodes_next g) (k.toNat + 1) (nid, false) k em
      (decide (0 < em)) [] np hnp with ⟨⟨ext2, he2⟩, _, hl2⟩
    have hpne : pp ≠ [] := by
      rw [he1]
      simp
    have hrevnp : np.reverse.tail = ext2.reverse := by
      rw [he2]
      simp
    refine ⟨?_, ?_, ?_⟩
    · intro hnil
      rcases List.append_eq_nil.1 hnil with ⟨h1, _⟩
      exact hpne h1
    · rcases hd1 with hd | hd
      · left
        have h0 : (pathBpLen g ([] : List Trav) : Int) = 0 := by
          simp [pathBpLen]
        rw [h0] at hd
        rw [pathBpLen_append]
        push_cast at hd ⊢
        omega
      · right
        rw [headI_append_of_ne_nil _ _ hpne]
        exact hd
    · intro hem
      have heb : decide (0 < em) = true := by simp [hem]
      have h1 := hl1 heb
      have h2 := hl2 heb
      rw [List.length_append, hrevnp, List.length_reverse]
      have hlnp : np.length = ext2.length + 1 := by
        rw [he2]
        simp
      have hmax : max em 0 = em := by omega
      rw [hmax] at h1 h2
      simp only [List.length_nil] at h1 h2
      push_cast at h1 h2 ⊢
      omega
  · intro q hq
    have := kpathsFrom_maxed_spec g (nodes_prev g) (k.toNat + 1) (nid, false) k em
      (decide (0 < em)) [] q hq
    simpa [pathBpLen] using this
  · intro q hq
    have := kpathsFrom_maxed_spec g (nodes_next g) (k.toNat + 1) (nid, false) k em
      (decide (0 < em)) [] q hq
    simpa [pathBpLen] using this

/-- C2 (as amended): every path handed to the emit callback of
`for_each_kpath(k, edge_max, ...)` is nonempty, and either its total bp
length is at least `k` (the budget stops extension only once `k` bp are
gathered, possibly overshooting within the final node — the header
promises "up to" the length, vg.hpp:613) or the path begins at a
traversal with no predecessors; when `edge_max > 0` each path crosses at
most `edge_max` edges on each side of its center node, hence at most
`2*edge_max` in total; and every traversal reported through the
`handle_prev_maxed` / `handle_next_maxed` callbacks was cut off while the
accumulated path was still strictly shorter than `k` bp. -/
theorem for_each_kpath_bounds (g : VG) (k edge_max : Int) :
    (∀ p ∈ (for_each_kpath g k edge_max).emitted,
      p ≠ [] ∧
      (k ≤ (pathBpLen g p : Int) ∨ nodes_prev g p.headI = []) ∧
      (0 < edge_max → (p.length : Int) - 1 ≤ 2 * edge_max)) ∧
    (∀ q ∈ (for_each_kpath g k edge_max).prevMaxed,
      (pathBpLen g q.2 : Int) < k) ∧
    (∀ q ∈ (for_each_kpath g k edge_max).nextMaxed,
      (pathBpLen g q.2 : Int) < k) := by
  refine ⟨?_, ?_, ?_⟩
  · intro p hp
    rcases List.mem_flatMap.1 hp with ⟨n, _, hpn⟩
    exact (kpaths_of_node_bounds g n.id k edge_max).1 p hpn
  · intro q hq
    rcases List.mem_flatMap.1 hq with ⟨n, _, hqn⟩
    exact (kpaths_of_node_bounds g n.id k edge_max).2.1 q hqn
  · intro q hq
    rcases List.mem_flatMap.1 hq with ⟨n, _, hqn⟩
    exact (kpaths_of_node_bounds g n.id k edge_max).2.2 q hqn

/-- A three-node chain 1:"AC" -> 2:"G" -> 3:"T" with ordinary
end-to-start edges. -/
def chainG : VG :=
  ⟨[⟨1, ['A', 'C']⟩, ⟨2, ['G']⟩, ⟨3, ['T']⟩],
   [⟨1, 2, false, false⟩, ⟨2, 3, false, false⟩], [], 4⟩

/-- Counterexample to C2 as stated: with `k = 2` and `edge_max = 1` the
enumeration emits the walk 1,2,3 whose total bp length is 4, not 2, and
which crosses 2 edges, more than `edge_max`. -/
theorem for_each_kpath_exact_k_cex :
    [((1 : Int), false), (2, false), (3, false)] ∈
      (for_each_kpath chainG 2 1).emitted ∧
    pathBpLen chainG [((1 : Int), false), (2, false), (3, false)] = 4 ∧
    ¬(pathBpLen chainG [((1 : Int), false), (2, false), (3, false)] = 2 ∧
      (([((1 : Int), false), (2, false), (3, false)] :
        List Trav).length : Int) - 1 ≤ 1) := by
  refine ⟨?_, by decide, by decide⟩
  decide

/-- Witness for the amended C2 on the chain graph at the emitted walk
1,2,3. -/
theorem for_each_kpath_bounds_witness :
    [((1 : Int), false), (2, false), (3, false)] ≠ [] ∧
    ((2 : Int) ≤ (pathBpLen chainG [((1 : Int), false), (2, false), (3, false)] : Int) ∨
      nodes_prev chainG ([((1 : Int), false), (2, false), (3, false)]).headI = []) ∧
    ((0 : Int) < 1 →
      (([((1 : Int), false), (2, false), (3, false)] : List Trav).length : Int) - 1 ≤
        2 * 1) :=
  (for_each_kpath_bounds chainG 2 1).1
    [((1 : Int), false), (2, false), (3, false)] (by decide)

/-- Complement of a base; characters outside A, C, G, T are unchanged. -/
def compl : Char → Char
  | 'A' => 'T'
  | 'T' => 'A'
  | 'C' => 'G'
  | 'G' => 'C'
  | c => c

/-- Reverse complement of a sequence. -/
def revcomp (s : List Char) : List Char :=
  (s.map compl).reverse

/-- Sequence contributed by a traversal, in its orientation. -/
def trav_seq (g : VG) (t : Trav) : List Char :=
  if t.2 then revcomp (seq_of g t.1) else seq_of g t.1

/-- Modelled from the spec: `VG::path_string` (declared vg.hpp:687) —
concatenation of the oriented node sequences of the walk. -/
def path_string (g : VG) (p : List Trav) : List Char :=
  p.flatMap (trav_seq g)

/-- Graph position `(node id, orientation, in-node offset)` of an in-path
offset. -/
def posOf (g : VG) : List Trav → Nat → Option (Int × Bool × Nat)
  | [], _ => none
  | t :: rest, i =>
    if i < trav_len g t then some (t.1, t.2, i)
    else posOf g rest (i - trav_len g t)

/-- Window start offsets at the given stride. -/
def windowStarts (total k stride : Nat) : List Nat :=
  (List.range total).filter (fun i => decide (i % stride = 0 ∧ i + k ≤ total))

/-- All k-mers of one k-path: the `k`-character windows of its string at
stride-multiple offsets, each tagged with its graph start position
(spec §4.6). -/
def kmersOfPath (g : VG) (p : List Trav) (k stride : Nat) :
    List (List Char × (Int × Bool × Nat)) :=
  (windowStarts (path_string g p).length k stride).filterMap (fun i =>
    (posOf g p i).map (fun pos => (((path_string g p).drop i).take k, pos)))

/-- First-occurrence suppression keyed by `key`, mirroring the C++
deduplication set threaded through the k-mer emission. -/
def dedupEmit {α κ : Type} [DecidableEq κ] (key : α → κ) :
    List α → List κ → List α
  | [], _ => []
  | x :: xs, seen =>
    if key x ∈ seen then dedupEmit key xs seen
    else x :: dedupEmit key xs (key x :: seen)

/-- Modelled from the spec: serial `VG::for_each_kmer` / `_for_each_kmer`
(declared vg.hpp:713-718, 795-802) — slide a window of size `kmer_size`
with the given stride over every enumerated k-path, and when
`allow_dups` is false suppress records repeating an already emitted
`(kmer string, start position)` pair (spec §4.6 guarantee). -/
def for_each_kmer (g : VG) (kmer_size edge_max : Int) (stride : Nat)
    (allow_dups : Bool) : List (List Char × (Int × Bool × Nat)) :=
  let all := (for_each_kpath g kmer_size edge_max).emitted.flatMap
    (fun p => kmersOfPath g p kmer_size.toNat stride)
  if allow_dups then all else dedupEmit id all []

lemma dedupEmit_key_mem {α κ : Type} [DecidableEq κ] (key : α → κ) :
    ∀ (l : List α) (seen : List κ) (x : α),
      x ∈ dedupEmit key l seen → x ∈ l ∧ key x ∉ seen := by
  intro l
  induction l with
  | nil => intro seen x hx; cases hx
  | cons a rest ih =>
    intro seen x hx
    rw [dedupEmit] at hx
    by_cases hc : key a ∈ seen
    · rw [if_pos hc] at hx
      rcases ih seen x hx with ⟨h1, h2⟩
      exact ⟨List.mem_cons_of_mem _ h1, h2⟩
    · rw [if_neg hc] at hx
      rcases List.mem_cons.1 hx with rfl | hx'
      · exact ⟨List.mem_cons_self _ _, hc⟩
      · rcases ih _ x hx' with ⟨h1, h2⟩
        exact ⟨List.mem_cons_of_mem _ h1,
          fun hs => h2 (List.mem_cons_of_mem _ hs)⟩

lemma dedupEmit_mem_key {α κ : Type} [DecidableEq κ] (key : α → κ) :
    ∀ (l : List α) (seen : List κ) (c : κ),
      c ∈ (dedupEmit key l seen).map key ↔ c ∈ l.map key ∧ c ∉ seen := by
  intro l
  induction l with
  | nil => intro seen c; simp [dedupEmit]
  | cons a rest ih =>
    intro seen c
    rw [dedupEmit]
    by_cases hc : key a ∈ seen
    · rw [if_pos hc, ih]
      simp only [List.map_cons, List.mem_cons]
      constructor
      · rintro ⟨h1, h2⟩
        exact ⟨Or.inr h1, h2⟩
      · rintro ⟨rfl | h1, h2⟩
        · exact absurd hc h2
        · exact ⟨h1, h2⟩
    · rw [if_neg hc]
      constructor
      · intro h
        rcases List.mem_map.1 h with ⟨x, hx, rfl⟩
        rcases List.mem_cons.1 hx with rfl | hx'
        · exact ⟨List.mem_map_of_mem key (List.mem_cons_self _ _), hc⟩
        · rcases dedupEmit_key_mem key rest _ x hx' with ⟨h1, h2⟩
          exact ⟨List.mem_map_of_mem key (List.mem_cons_of_mem _ h1),
            fun hs => h2 (List.mem_cons_of_mem _ hs)⟩
      · rintro ⟨h1, h2⟩
        rcases List.mem_map.1 h1 with ⟨x, hx, rfl⟩
        rcases List.mem_cons.1 hx with rfl | hx'
        · exact List.mem_map_of_mem key (List.mem_cons_self _ _)
        · by_cases hck : key x = key a
          · rw [hck]
            exact List.mem_map_of_mem key (List.mem_cons_self _ _)
          · have hmem2 : key x ∈ (dedupEmit key rest (key a :: seen)).map key :=
              (ih _ (key x)).2 ⟨List.mem_map_of_mem key hx', fun hs => by
                rcases List.mem_cons.1 hs with h | h
                · exact hck h
                · exact h2 h⟩
            rcases List.mem_map.1 hmem2 with ⟨y, hy, hxy⟩
            rw [← hxy]
            exact List.mem_map_of_mem key (List.mem_cons_of_mem _ hy)

lemma dedupEmit_key_nodup {α κ : Type} [DecidableEq κ] (key : α → κ) :
    ∀ (l : List α) (seen : List κ), ((dedupEmit key l seen).map key).Nodup := by
  intro l
  induction l with
  | nil => intro seen; simp [dedupEmit]
  | cons a rest ih =>
    intro seen
    rw [dedupEmit]
    by_cases hc : key a ∈ seen
    · rw [if_pos hc]; exact ih seen
    · rw [if_neg hc]
      simp only [List.map_cons]
      refine List.nodup_cons.2 ⟨?_, ih _⟩
      intro hmem
      exact ((dedupEmit_mem_key key rest _ _).1 hmem).2 (List.mem_cons_self _ _)

/-- C4: with `allow_dups = false` the serial k-mer enumeration invokes the
callback exactly once per distinct `(kmer string, start position)` record
arising from the stride-windowed enumeration: no two emissions coincide,
a record is emitted iff the unsuppressed (`allow_dups = true`) stream
contains it, and each such record is emitted exactly once. -/
theorem for_each_kmer_dedup (g : VG) (kmer_size edge_max : Int) (stride : Nat) :
    (for_each_kmer g kmer_size edge_max stride false).Nodup ∧
    (∀ r, r ∈ for_each_kmer g kmer_size edge_max stride false ↔
      r ∈ for_each_kmer g kmer_size edge_max stride true) ∧
    (∀ r, @List.count _ instBEqOfDecidableEq r
        (for_each_kmer g kmer_size edge_max stride false) =
      if r ∈ for_each_kmer g kmer_size edge_max stride true then 1 else 0) := by
  have hmapid : ∀ (l : List (List Char × (Int × Bool × Nat))),
      l.map (fun x => x) = l := fun l => List.map_id' l
  have hnd : (for_each_kmer g kmer_size edge_max stride false).Nodup := by
    rw [for_each_kmer]
    simp only [if_neg Bool.false_ne_true]
    have := dedupEmit_key_nodup (fun x => x)
      ((for_each_kpath g kmer_size edge_max).emitted.flatMap
        (fun p => kmersOfPath g p kmer_size.toNat stride)) []
    rwa [hmapid] at this
  have hmem : ∀ r, r ∈ for_each_kmer g kmer_size edge_max stride false ↔
      r ∈ for_each_kmer g kmer_size edge_max stride true := by
    intro r
    rw [for_each_kmer, for_each_kmer]
    simp only [if_neg Bool.false_ne_true, if_pos rfl]
    constructor
    · intro h
      have := (dedupEmit_mem_key (fun x => x) _ [] r).1
        (by rw [hmapid]; exact h)
      exact this.1 |> fun h1 => by rwa [hmapid] at h1
    · intro h
      have := (dedupEmit_mem_key (fun x => x) _ ([] : List _) r).2
        ⟨by rw [hmapid]; exact h, List.not_mem_nil r⟩
      rwa [hmapid] at this
  refine ⟨hnd, hmem, ?_⟩
  intro r
  by_cases hr : r ∈ for_each_kmer g kmer_size edge_max stride true
  · rw [if_pos hr]
    exact List.count_eq_one_of_mem hnd ((hmem r).2 hr)
  · rw [if_neg hr]
    exact @List.count_eq_zero_of_not_mem _ instBEqOfDecidableEq
      (@instLawfulBEq _ _) r _ (fun h => hr ((hmem r).1 h))

/-- Witness for C4 on the chain graph with `k = 2`, `edge_max = 1`,
stride 1. -/
theorem for_each_kmer_dedup_witness :
    (for_each_kmer chainG 2 1 1 false).Nodup ∧
    ((['A', 'C'], ((1 : Int), false, 0)) ∈ for_each_kmer chainG 2 1 1 false ↔
      (['A', 'C'], ((1 : Int), false, 0)) ∈ for_each_kmer chainG 2 1 1 true) :=
  ⟨(for_each_kmer_dedup chainG 2 1 1).1,
   (for_each_kmer_dedup chainG 2 1 1).2.1 (['A', 'C'], ((1 : Int), false, 0))⟩

/-- Left side of a traversal: the node's end when walking backward. -/
def sideOfTravLeft (t : Trav) : NodeSide := ⟨t.1, t.2⟩

/-- Right (exit) side of a traversal. -/
def sideOfTravRight (t : Trav) : NodeSide := ⟨t.1, !t.2⟩

/-- Whether an edge touches the given node side. -/
def incident (e : Edge) (s : NodeSide) : Bool :=
  Edge.fromSide e == s || Edge.toSide e == s

/-- An edge is consumed once a traversal carrying it on its right side has
been emitted (spec §4.4.1: "mark all its right-side edges consumed"). -/
def consumed (emitted : List Trav) (e : Edge) : Bool :=
  emitted.any (fun u => incident e (sideOfTravRight u))

/-- A traversal is ready when every edge on its left side is consumed. -/
def ready (g : VG) (emitted : List Trav) (t : Trav) : Bool :=
  g.edges.all (fun e => !incident e (sideOfTravLeft t) || consumed emitted e)

/-- Embeds `VG::head_nodes` semantics (vg.hpp:814-815): nodes with no
edges on their left (start) side. -/
def head_nodes (g : VG) : List Int :=
  (g.nodes.filter (fun n => (edges_on_start g n.id).isEmpty)).map Node.id

/-- Modelled from the spec: the Kahn-style loop of `VG::topological_sort`
(declared vg.hpp:595; spec §4.4.1).  The stack starts with the forward
head traversals; popping a traversal of an unemitted node whose left-side
edges are all consumed emits it and pushes the traversals entered through
its right-side edges; an unready traversal is dropped (it is pushed again
when another emission consumes one of its left edges).  When the stack
runs dry with nodes left, the spec's fallback picks any remaining node in
an orientation whose left side is fully consumed, or forward as the
cycle-breaking heuristic. -/
def kahnLoop (g : VG) : Nat → List Trav → List Trav → List Trav
  | 0, _, acc => acc.reverse
  | fuel + 1, stack, acc =>
    match stack with
    | [] =>
      match g.nodes.filter (fun n => !acc.any (fun u => u.1 == n.id)) with
      | [] => acc.reverse
      | n :: _ =>
        let t : Trav :=
          if ready g acc (n.id, false) then (n.id, false)
          else if ready g acc (n.id, true) then (n.id, true)
          else (n.id, false)
        kahnLoop g fuel (nodes_next g t) (t :: acc)
    | t :: rest =>
      if acc.any (fun u => u.1 == t.1) then kahnLoop g fuel rest acc
      else if ready g acc t then
        kahnLoop g fuel (nodes_next g t ++ rest) (t :: acc)
      else kahnLoop g fuel rest acc

/-- The traversal order produced by the modelled topological sort. -/
def topological_order (g : VG) : List Trav :=
  kahnLoop g ((g.nodes.length + 1) * (2 * g.edges.length + 2) + g.nodes.length + 4)
    ((head_nodes g).map (fun i => (i, false))) []

/-- Position of a node in the traversal order. -/
def posInOrder (order : List Trav) (i : Int) : Option Nat :=
  order.findIdx? (fun t => t.1 == i)

/-- Orientation the sort emitted for a node (`true` = backward). -/
def flipOf (order : List Trav) (i : Int) : Bool :=
  ((order.find? (fun t => t.1 == i)).map Prod.snd).getD false

/-- An edge agrees with the emitted order when it leaves the exit side of
the earlier node and enters the entry side of the later node. -/
def edgeConsistent (order : List Trav) (e : Edge) : Bool :=
  match posInOrder order e.«from», posInOrder order e.«to» with
  | some pf, some pt =>
    if pf < pt then
      (Edge.fromSide e == sideOfTravRight (e.«from», flipOf order e.«from»)) &&
      (Edge.toSide e == sideOfTravLeft (e.«to», flipOf order e.«to»))
    else if pt < pf then
      (Edge.toSide e == sideOfTravRight (e.«to», flipOf order e.«to»)) &&
      (Edge.fromSide e == sideOfTravLeft (e.«from», flipOf order e.«from»))
    else false
  | _, _ => false

/-- The modelled sort succeeded: the order visits every node exactly once,
names only existing nodes, and every edge is consistently oriented by it. -/
def sortConsistent (g : VG) : Bool :=
  let order := topological_order g
  decide ((order.map Prod.fst).Nodup) &&
  g.nodes.all (fun n => (order.map Prod.fst).contains n.id) &&
  order.all (fun t => has_node g t.1) &&
  g.edges.all (fun e => edgeConsistent order e)

/-- Modelled from the spec: the combined effect of `VG::sort()` followed
by `VG::orient_nodes_forward(...)` (declared vg.hpp:593, 603; bodies in
the missing vg.cpp; spec §4.4.1).  The nodes are reordered into the
emitted traversal order; every node emitted backward is
reverse-complemented and recorded in `nodes_flipped`; each edge endpoint
on a flipped node has its side flag toggled, and an edge left with both
flags set (same bidirected edge read in the opposite direction) is
normalized by swapping its endpoints.  Returns the graph and
`nodes_flipped`.  `orientEdge` is the per-edge rewrite. -/
def orientEdge (order : List Trav) (e : Edge) : Edge :=
  if xor e.from_start (flipOf order e.«from») && xor e.to_end (flipOf order e.«to») then
    ⟨e.«to», e.«from», false, false⟩
  else
    ⟨e.«from», e.«to», xor e.from_start (flipOf order e.«from»),
      xor e.to_end (flipOf order e.«to»)⟩

def sort_orient (g : VG) : VG × List Int :=
  let order := topological_order g
  let nodes' := order.filterMap (fun t => (node_by_id g t.1).map (fun n =>
    if t.2 then (⟨n.id, revcomp n.sequence⟩ : Node) else n))
  (⟨nodes', g.edges.map (orientEdge order), g.pathList, g.current_id⟩,
   (order.filter (fun t => t.2)).map Prod.fst)

/-- The claim's post-condition: only end-to-start edges, each pointing
from an earlier to a later node of the store. -/
def topoPost (g : VG) : Bool :=
  g.edges.all (fun e =>
    !e.from_start && !e.to_end &&
    (match node_index g e.«from», node_index g e.«to» with
     | some i, some j => decide (i < j)
     | _, _ => false))

/-- All traversals of the graph's nodes. -/
def allTravs (g : VG) : List Trav :=
  g.nodes.flatMap (fun n => [(n.id, false), (n.id, true)])

/-- One round of successor expansion for reachability. -/
def stepReach (g : VG) (s : List Trav) : List Trav :=
  (s ++ s.flatMap (nodes_next g)).dedup

/-- Iterated successor expansion. -/
def reachN (g : VG) : Nat → List Trav → List Trav
  | 0, s => s
  | fuel + 1, s => reachN g fuel (stepReach g s)

/-- Decidable acyclicity of the bidirected graph: no traversal reaches
itself through oriented walks (the expansion is run past the point where
the closure over the `2 * |nodes|` traversals stabilizes). -/
def acyclicB (g : VG) : Bool :=
  !(allTravs g).any (fun t =>
    decide (t ∈ reachN g (2 * g.nodes.length + 2) (nodes_next g t)))

lemma findIdx?_congr_map {α β : Type} (f : α → Int) (h : β → Int) :
    ∀ (l1 : List α) (l2 : List β), l1.map f = l2.map h →
      ∀ (c : Int) (i : Nat),
        l1.findIdx? (fun x => f x == c) i = l2.findIdx? (fun y => h y == c) i := by
  intro l1
  induction l1 with
  | nil =>
    intro l2 hmap c i
    cases l2 with
    | nil => rfl
    | cons b l2' => simp at hmap
  | cons a l1' ih =>
    intro l2 hmap c i
    cases l2 with
    | nil => simp at hmap
    | cons b l2' =>
      simp only [List.map_cons, List.cons.injEq] at hmap
      rw [List.findIdx?_cons, List.findIdx?_cons, hmap.1, ih l2' hmap.2 c (i + 1)]

lemma sort_orient_nodes_id (g : VG) :
    ∀ order : List Trav, (∀ t ∈ order, has_node g t.1 = true) →
      (order.filterMap (fun t => (node_by_id g t.1).map (fun n =>
        if t.2 then (⟨n.id, revcomp n.sequence⟩ : Node) else n))).map Node.id =
      order.map Prod.fst := by
  intro order
  induction order with
  | nil => intro _; rfl
  | cons t rest ih =>
    intro hsome
    have ht := hsome t (List.mem_cons_self _ _)
    rw [has_node, Option.isSome_iff_exists] at ht
    rcases ht with ⟨n, hn⟩
    rw [List.filterMap_cons, hn]
    simp only [Option.map_some']
    rw [List.map_cons, ih (fun u hu => hsome u (List.mem_cons_of_mem _ hu))]
    have hid : (if t.2 then (⟨n.id, revcomp n.sequence⟩ : Node) else n).id = t.1 := by
      rcases t with ⟨i, b⟩
      cases b <;> simp [(node_by_id_some hn).2]
    rw [hid, List.map_cons]

lemma sort_orient_node_index (g : VG)
    (hsome : ∀ t ∈ topological_order g, has_node g t.1 = true) (i : Int) :
    node_index (sort_orient g).1 i = posInOrder (topological_order g) i := by
  have hmap := sort_orient_nodes_id g (topological_order g) hsome
  rw [node_index, posInOrder]
  exact findIdx?_congr_map Node.id Prod.fst _ _ hmap i 0

/-- C1 (as amended): whenever the modelled topological sort finds a
consistent orientation — its order covers every node exactly once and
every edge leaves the exit side of its earlier endpoint and enters the
entry side of its later endpoint (`sortConsistent`) — then after the
`sort(); orient_nodes_forward(...)` sequence every edge of the graph has
`from_start = false` and `to_end = false` and runs from a node at a
strictly smaller `node_index` to one at a strictly larger `node_index`. -/
theorem sort_orient_topological (g : VG) (h : sortConsistent g = true) :
    topoPost (sort_orient g).1 = true := by
  rw [sortConsistent] at h
  simp only [Bool.and_eq_true, List.all_eq_true, decide_eq_true_eq] at h
  obtain ⟨⟨⟨hnd, hall⟩, hsome⟩, hec⟩ := h
  rw [topoPost, List.all_eq_true]
  intro e' he'
  have hedges : (sort_orient g).1.edges =
      g.edges.map (orientEdge (topological_order g)) := rfl
  rw [hedges] at he'
  rcases List.mem_map.1 he' with ⟨e, he, rfl⟩
  have hc := hec e he
  rw [edgeConsistent] at hc
  rcases hpf : posInOrder (topological_order g) e.«from» with _ | pf
  · rw [hpf] at hc
    rcases posInOrder (topological_order g) e.«to» with _ | pt <;> cases hc
  rcases hpt : posInOrder (topological_order g) e.«to» with _ | pt
  · rw [hpf, hpt] at hc
    cases hc
  rw [hpf, hpt] at hc
  have hc2 : (if pf < pt then
      (Edge.fromSide e == sideOfTravRight (e.«from», flipOf (topological_order g) e.«from»)) &&
      (Edge.toSide e == sideOfTravLeft (e.«to», flipOf (topological_order g) e.«to»))
      else if pt < pf then
      (Edge.toSide e == sideOfTravRight (e.«to», flipOf (topological_order g) e.«to»)) &&
      (Edge.fromSide e == sideOfTravLeft (e.«from», flipOf (topological_order g) e.«from»))
      else false) = true := hc
  have hidx := fun i => sort_orient_node_index g hsome i
  by_cases hlt : pf < pt
  · rw [if_pos hlt] at hc2
    rw [Bool.and_eq_true, beq_iff_eq, beq_iff_eq] at hc2
    rcases hc2 with ⟨hfrom, hto⟩
    rw [Edge.fromSide, sideOfTravRight, NodeSide.mk.injEq] at hfrom
    rw [Edge.toSide, sideOfTravLeft, NodeSide.mk.injEq] at hto
    have hbf : e.from_start = flipOf (topological_order g) e.«from» :=
      Bool.not_inj hfrom.2
    have hbt : e.to_end = flipOf (topological_order g) e.«to» := hto.2
    have hoe : orientEdge (topological_order g) e =
        ⟨e.«from», e.«to», false, false⟩ := by
      rw [orientEdge, ← hbf, ← hbt]
      cases e.from_start <;> cases e.to_end <;> rfl
    simp only [hoe, Bool.not_false, Bool.true_and, hidx, hpf, hpt]
    exact decide_eq_true hlt
  · by_cases hgt : pt < pf
    · rw [if_neg hlt, if_pos hgt] at hc2
      rw [Bool.and_eq_true, beq_iff_eq, beq_iff_eq] at hc2
      rcases hc2 with ⟨hto, hfrom⟩
      rw [Edge.toSide, sideOfTravRight, NodeSide.mk.injEq] at hto
      rw [Edge.fromSide, sideOfTravLeft, NodeSide.mk.injEq] at hfrom
      have hbt : e.to_end = !flipOf (topological_order g) e.«to» := hto.2
      have hbf : e.from_start = !flipOf (topological_order g) e.«from» := by
        have h2 : (!e.from_start) = flipOf (topological_order g) e.«from» := hfrom.2
        rw [← h2, Bool.not_not]
      have hoe : orientEdge (topological_order g) e =
          ⟨e.«to», e.«from», false, false⟩ := by
        rw [orientEdge, hbf, hbt]
        cases flipOf (topological_order g) e.«from» <;>
          cases flipOf (topological_order g) e.«to» <;> rfl
      simp only [hoe, Bool.not_false, Bool.true_and, hidx, hpf, hpt]
      exact decide_eq_true hgt
    · rw [if_neg hlt, if_neg hgt] at hc2
      cases hc2

/-- The bubble graph S1 of the spec: 1:"A" branching to 2:"C" and 3:"G",
both rejoining at 4:"T". -/
def bubbleG : VG :=
  ⟨[⟨1, ['A']⟩, ⟨2, ['C']⟩, ⟨3, ['G']⟩, ⟨4, ['T']⟩],
   [⟨1, 2, false, false⟩, ⟨1, 3, false, false⟩,
    ⟨2, 4, false, false⟩, ⟨3, 4, false, false⟩], [], 5⟩

/-- The reversing-edge graph S3 of the spec: 1:"AC", 2:"GT" joined
end-to-end. -/
def revG : VG :=
  ⟨[⟨1, ['A', 'C']⟩, ⟨2, ['G', 'T']⟩], [⟨1, 2, false, true⟩], [], 3⟩

/-- An acyclic graph that admits no consistent orientation: node 2 is
entered on its start by one edge and on its end by another, both from
node 1's end. -/
def nonOrientG : VG :=
  ⟨[⟨1, ['A']⟩, ⟨2, ['C']⟩], [⟨1, 2, false, false⟩, ⟨1, 2, false, true⟩], [], 3⟩

/-- Witness for the amended C1: the sort orients both the bubble graph
and the reversing-edge graph, the post-condition holds afterwards, and on
the reversing graph node 2 is flipped and reverse-complemented. -/
theorem sort_orient_topological_witness :
    sortConsistent bubbleG = true ∧ topoPost (sort_orient bubbleG).1 = true ∧
    sortConsistent revG = true ∧ topoPost (sort_orient revG).1 = true ∧
    (sort_orient revG).2 = [2] ∧
    seq_of (sort_orient revG).1 2 = ['A', 'C'] :=
  ⟨by decide, sort_orient_topological bubbleG (by decide), by decide,
   sort_orient_topological revG (by decide), by decide, by decide⟩

/-- Counterexample to C1 as stated: `nonOrientG` is acyclic (no oriented
walk returns to its starting traversal), yet after `sort` +
`orient_nodes_forward` the reversing edge remains and the post-condition
fails — no orientation assignment could satisfy it. -/
theorem sort_orient_acyclic_cex :
    acyclicB nonOrientG = true ∧ topoPost (sort_orient nonOrientG).1 = false := by
  exact ⟨by decide, by decide⟩

end vg
